import Mathlib

/-!
# Verification of the deeprank-core graph-construction engine

Shallow embedding of the graph construction and export code of the
repository (files `deeprank_gnn/models/query.py`, `deeprank_gnn/models/graph.py`,
`deeprankcore/feature/pssm.py`, `deeprankcore/tools/pssm.py`), together with
proofs of the specified properties.

Conventions of the embedding:
* 3-D coordinates are rational numbers; a comparison `dist(p,q) < c` of a
  Euclidean distance against a cutoff is represented without square roots as
  `0 ≤ c ∧ distSq p q < c²`, which is equivalent for the nonnegative
  Euclidean distance.
* Python dictionaries are association lists with upsert semantics
  (assigning to an existing key replaces the value in place and keeps the
  original key object; assigning to a fresh key appends).
* Fallible code returns `Except String`.
-/

namespace DeeprankCore

/-- A 3-D position with rational coordinates. -/
structure Vec3 where
  x : ℚ
  y : ℚ
  z : ℚ
deriving DecidableEq, Repr

/-- Squared Euclidean distance between two positions. -/
def distSq (p q : Vec3) : ℚ :=
  (p.x - q.x) * (p.x - q.x) + (p.y - q.y) * (p.y - q.y) + (p.z - q.z) * (p.z - q.z)

/-- The comparison `dist(p,q) < c` of the Euclidean distance against a cutoff
`c`, expressed without square roots: since the distance is nonnegative, it is
below `c` exactly when `c` is nonnegative and the squared distance is below
`c²`. -/
def distLtCutoff (p q : Vec3) (c : ℚ) : Bool :=
  decide (0 ≤ c) && decide (distSq p q < c * c)

theorem distSq_nonneg (p q : Vec3) : 0 ≤ distSq p q := by
  have hx : (0:ℚ) ≤ (p.x - q.x) * (p.x - q.x) := mul_self_nonneg _
  have hy : (0:ℚ) ≤ (p.y - q.y) * (p.y - q.y) := mul_self_nonneg _
  have hz : (0:ℚ) ≤ (p.z - q.z) * (p.z - q.z) := mul_self_nonneg _
  unfold distSq
  linarith

theorem distSq_comm (p q : Vec3) : distSq p q = distSq q p := by
  unfold distSq
  ring

/-- An entity that can serve as a graph node: an atom (or a residue) of the
structure, carrying its identifying key (the string the query code derives
with `_get_atom_node_key`, documented to be unique per atom), its PDB atom
name (for example `"SG"` for the cysteine gamma sulfur) and its 3-D position.
Entity equality is full identity-tuple equality. -/
structure Entity where
  key : String
  name : String
  position : Vec3
deriving DecidableEq, Repr

/-- Edge-type tag for covalent / short-range contacts.
Modelled from the spec: the constant `EDGETYPE_INTERNAL` lives in the module
`deeprank_gnn/domain/graph.py`, which is not part of the sources; the spec
calls this classification "internal". -/
def EDGETYPE_INTERNAL : String := "internal"

/-- Edge-type tag for cross-molecule contacts.
Modelled from the spec: the constant `EDGETYPE_INTERFACE` lives in the module
`deeprank_gnn/domain/graph.py`, which is not part of the sources; the spec
calls this classification "interface". -/
def EDGETYPE_INTERFACE : String := "interface"

/-- An edge of the graph built by `SingleResidueVariantAtomicQuery.build_graph`:
the two endpoint atoms together with the attached edge features (`type` and
`distance`; the distance is carried as its square, see `distLtCutoff`). -/
structure QEdge where
  item1 : Entity
  item2 : Entity
  edge_type : String
  distanceSq : ℚ
deriving DecidableEq, Repr

/-- Two query-graph edges address the same unordered pair of node keys. -/
def sameUnorderedKey (e f : QEdge) : Prop :=
  (e.item1.key = f.item1.key ∧ e.item2.key = f.item2.key) ∨
  (e.item1.key = f.item2.key ∧ e.item2.key = f.item1.key)

instance (e f : QEdge) : Decidable (sameUnorderedKey e f) := by
  unfold sameUnorderedKey
  infer_instance

/-- Insert an edge into the edge map of the query-side graph.
Modelled from the spec: the graph object used by `build_graph` in
`deeprank_gnn/models/query.py` keys its edges by *unordered* entity pairs
("edges keyed by unordered entity pairs"; "adding an edge for an
already-present pair overwrites, not duplicates"): if an edge for the same
unordered key pair is present its entry is replaced, else the edge is
appended. -/
def upsertQ (es : List QEdge) (f : QEdge) : List QEdge :=
  match es with
  | [] => [f]
  | g :: rest => if sameUnorderedKey g f then f :: rest else g :: upsertQ rest f

/-- The edge-type classification of `SingleResidueVariantAtomicQuery.build_graph`
(`query.py` lines 173-181): internal when the distance is below the bonded
cutoff, internal when both atoms are named `"SG"` and the distance is below
the disulfid cutoff, otherwise interface. -/
def atomicEdgeType (atom1 atom2 : Entity) (p1 p2 : Vec3) (bonded disulfid : ℚ) : String :=
  if distLtCutoff p1 p2 bonded then EDGETYPE_INTERNAL
  else if atom1.name = "SG" ∧ atom2.name = "SG" ∧ distLtCutoff p1 p2 disulfid then
    EDGETYPE_INTERNAL
  else EDGETYPE_INTERFACE

/-- The edge object inserted for a qualifying atom pair. -/
def atomicEdgeOf (bonded disulfid : ℚ) (atom1 atom2 : Entity) : QEdge :=
  { item1 := atom1
    item2 := atom2
    edge_type := atomicEdgeType atom1 atom2 atom1.position atom2.position bonded disulfid
    distanceSq := distSq atom1.position atom2.position }

/-- One iteration of the edge loop of
`SingleResidueVariantAtomicQuery.build_graph` (`query.py` lines 162-188): the
pair `(i, atom1), (j, atom2)` taken from `numpy.nonzero` of the thresholded
distance matrix contributes an edge when the distance is below the nonbonded
cutoff and `i ≠ j`. -/
def atomicStep (nonbonded bonded disulfid : ℚ) (edges : List QEdge)
    (pp : (ℕ × Entity) × (ℕ × Entity)) : List QEdge :=
  if distLtCutoff pp.1.2.position pp.2.2.position nonbonded then
    if pp.1.1 ≠ pp.2.1 then upsertQ edges (atomicEdgeOf bonded disulfid pp.1.2 pp.2.2)
    else edges
  else edges

/-- All index pairs `(i, j)` of the `N×N` distance matrix in the row-major
order in which `numpy.transpose(numpy.nonzero(...))` yields them. -/
def atomPairList (atoms : List Entity) : List ((ℕ × Entity) × (ℕ × Entity)) :=
  atoms.enum.flatMap fun p1 => atoms.enum.map fun p2 => (p1, p2)

/-- The edge set produced by `SingleResidueVariantAtomicQuery.build_graph`
(`query.py` lines 158-188) for a given atom list and the three distance
cutoffs: every ordered pair of positions in the full pairwise distance matrix
below the nonbonded cutoff, with self-pairs excluded, classified by
`atomicEdgeType` and upserted into the unordered-pair edge map. -/
def buildGraphAtomic (atoms : List Entity) (nonbonded bonded disulfid : ℚ) : List QEdge :=
  (atomPairList atoms).foldl (atomicStep nonbonded bonded disulfid) []

/-! ### The graph container of `deeprank_gnn/models/graph.py` -/

/-- A feature value attached to a node or an edge: a scalar, a fixed-length
numeric vector, or a string tag (the edge-type feature stores a string). -/
inductive FeatValue
  | num (value : ℚ)
  | vec (values : List ℚ)
  | str (value : String)
deriving DecidableEq, Repr

/-- The id of an edge: a contact between two entities (the class `Contact` of
`deeprank_gnn/models/contact.py`, which is not among the sources).
Modelled from the spec: an edge "wraps an unordered pair of Entities (a
contact)". -/
structure Contact where
  item1 : Entity
  item2 : Entity
deriving DecidableEq, Repr

/-- Contact equality as Python dictionary keys see it.
Modelled from the spec: edges are "keyed by unordered entity pairs", so two
contacts compare equal when they hold the same two entities in either
order. -/
def contactEq (c d : Contact) : Prop :=
  (c.item1 = d.item1 ∧ c.item2 = d.item2) ∨ (c.item1 = d.item2 ∧ c.item2 = d.item1)

instance (c d : Contact) : Decidable (contactEq c d) := by
  unfold contactEq
  infer_instance

/-- The class `Edge` of `deeprank_gnn/models/graph.py`: a contact id plus an
owned feature mapping. -/
structure Edge where
  id : Contact
  features : List (String × FeatValue)
deriving DecidableEq, Repr

/-- `Edge.position1`: the position of the first constituent entity. -/
def Edge.position1 (e : Edge) : Vec3 := e.id.item1.position

/-- `Edge.position2`: the position of the second constituent entity. -/
def Edge.position2 (e : Edge) : Vec3 := e.id.item2.position

/-- The class `Node` of `deeprank_gnn/models/graph.py`: an entity id plus an
owned feature mapping. -/
structure Node where
  id : Entity
  features : List (String × FeatValue)
deriving DecidableEq, Repr

/-- `Node.position` delegates to the position of the wrapped entity. -/
def Node.position (n : Node) : Vec3 := n.id.position

/-- The class `Graph` of `deeprank_gnn/models/graph.py`: a dictionary of nodes
keyed by node id and a dictionary of edges keyed by contact id. -/
structure Graph where
  id : String
  nodes : List (Entity × Node)
  edges : List (Contact × Edge)
deriving DecidableEq, Repr

/-- Python dict assignment `self._nodes[node.id] = node`: replace the value at
an equal key in place, else append. -/
def upsertNode : List (Entity × Node) → Entity → Node → List (Entity × Node)
  | [], k, v => [(k, v)]
  | (k0, v0) :: rest, k, v =>
    if k0 = k then (k0, v) :: rest else (k0, v0) :: upsertNode rest k v

/-- `Graph.add_node` of `deeprank_gnn/models/graph.py`. -/
def Graph.add_node (g : Graph) (node : Node) : Graph :=
  { g with nodes := upsertNode g.nodes node.id node }

/-- Python dict assignment `self._edges[edge.id] = edge`; keys are contacts
compared with `contactEq`. -/
def upsertEdge : List (Contact × Edge) → Contact → Edge → List (Contact × Edge)
  | [], k, v => [(k, v)]
  | (k0, v0) :: rest, k, v =>
    if contactEq k0 k then (k0, v) :: rest else (k0, v0) :: upsertEdge rest k v

/-- `Graph.add_edge` of `deeprank_gnn/models/graph.py`. -/
def Graph.add_edge (g : Graph) (edge : Edge) : Graph :=
  { g with edges := upsertEdge g.edges edge.id edge }

/-- Dictionary lookup `self._edges[id_]` on the edge map. -/
def edgeLookup (es : List (Contact × Edge)) (k : Contact) : Option Edge :=
  match es with
  | [] => none
  | (k0, v0) :: rest => if contactEq k0 k then some v0 else edgeLookup rest k

/-- Whether the graph already holds an edge for a given contact key. -/
def containsContact (g : Graph) (k : Contact) : Bool :=
  (edgeLookup g.edges k).isSome

/-- The bindings named `edge` visible from inside the body of
`Graph.get_edge`: there are none — the method's parameter is named `id_` and
the module level only binds the class name `Edge`. -/
def scopeLookup_edge : Option Edge := none

/-- `Graph.get_edge` of `deeprank_gnn/models/graph.py`. Its body is
`return self._edges[edge.id]`, which reads the unbound name `edge`; Python
therefore raises `NameError` before any dictionary lookup can happen. -/
def Graph.get_edge (g : Graph) (id_ : Contact) : Except String Edge :=
  match scopeLookup_edge with
  | none => Except.error "NameError: name edge is not defined"
  | some edge =>
    match edgeLookup g.edges edge.id with
    | some v => Except.ok v
    | none => Except.error "KeyError"

/-! ### Grid projection (`map_to_grid`, `to_hdf5_cnn`) -/

/-- One invocation of
`map_features(grid, position, feature_name, feature_value, method)` performed
by `Graph.map_to_grid`; `map_features` itself lives in
`deeprank_gnn/tools/grid.py`, outside the sources, so the mapping pass is
represented by the exact sequence of calls it receives. -/
structure MapCall where
  position : Vec3
  feature_name : String
  feature_value : FeatValue
deriving DecidableEq, Repr

/-- `Graph.map_to_grid` of `deeprank_gnn/models/graph.py`, as the sequence of
`map_features` calls it performs: first, for every edge and every edge
feature, one call at `position1` followed by one call at `position2`; then,
for every node and every node feature, one call at the node's position. -/
def Graph.map_to_grid_calls (g : Graph) : List MapCall :=
  (g.edges.flatMap fun p =>
    p.2.features.flatMap fun fv =>
      [⟨p.2.position1, fv.1, fv.2⟩, ⟨p.2.position2, fv.1, fv.2⟩]) ++
  g.nodes.flatMap fun p =>
    p.2.features.map fun fv => ⟨p.2.position, fv.1, fv.2⟩

/-- The grid configuration (point counts per axis and physical resolution),
carried opaquely by the embedding. -/
structure GridSettings where
  points_count : ℕ
  size : ℚ
deriving DecidableEq, Repr

/-- The class `Grid` as created by `to_hdf5_cnn`: an id, the settings and the
center position. -/
structure Grid where
  id : String
  settings : GridSettings
  center : Vec3
deriving DecidableEq, Repr

/-- Componentwise arithmetic mean of a list of positions
(`numpy.mean(positions, axis=0)`). -/
def meanVec (ps : List Vec3) : Vec3 :=
  ⟨(ps.map Vec3.x).sum / ps.length, (ps.map Vec3.y).sum / ps.length,
   (ps.map Vec3.z).sum / ps.length⟩

/-- The grid object built by `Graph.to_hdf5_cnn`
(`deeprank_gnn/models/graph.py` lines 109-114): its center is
`numpy.mean([node.position for node in self._nodes], axis=0)`; iterating the
node dictionary yields its *keys*, whose `position` attribute is read. -/
def Graph.to_hdf5_cnn_grid (g : Graph) (settings : GridSettings) : Grid :=
  ⟨g.id, settings, meanVec (g.nodes.map fun p => p.1.position)⟩

/-- The centroid of a graph, stated from the spec's words ("centered at the
arithmetic mean of all node positions"): the mean of the positions of the
stored `Node` values. To be compared with the center that
`Graph.to_hdf5_cnn_grid` computes. -/
def Graph.centroid (g : Graph) : Vec3 :=
  meanVec (g.nodes.map fun p => p.2.position)

/-! ### The residue-level interface query
(`ProteinProteinInterfaceResidueQuery` of `deeprank_gnn/models/query.py`) -/

/-- A residue of the structure model: parent chain id, PDB residue number,
optional insertion code, optional amino-acid identity (`None` when the
residue's amino acid is unknown), the string key `str(residue)` used to name
graph nodes, and the positions of its constituent atoms. Equality is full
identity-tuple equality. -/
structure Residue where
  chain_id : String
  number : Int
  insertion_code : Option String
  amino_acid : Option String
  key : String
  atom_positions : List Vec3
deriving DecidableEq, Repr

/-- `_residue_is_valid` of `ProteinProteinInterfaceResidueQuery`
(`query.py` lines 245-254): a residue whose amino acid is `None`, or which has
no entry in its chain's PSSM table, is invalid (and only logged). The parsed
PSSM table of a chain is represented by the list of residues it contains,
indexed by chain id. -/
def residue_is_valid (chainPssm : String → List Residue) (r : Residue) : Bool :=
  match r.amino_acid with
  | none => false
  | some _ => decide (r ∈ chainPssm r.chain_id)

/-- Modelled from the spec: `get_residue_distance` lives in
`deeprank_gnn/tools/pdb.py`, which is not among the sources; the spec defines
residue-to-residue distance as "the minimum atom-to-atom distance between the
two residues". Carried as a squared distance (the minimum of the squared
pairwise distances is the square of the minimum distance). -/
def residue_distanceSq (r1 r2 : Residue) : ℚ :=
  ((r1.atom_positions.flatMap fun p =>
    r2.atom_positions.map fun q => distSq p q).min?).getD 0

/-- The comparison `get_residue_distance(r1, r2) < c` without square roots. -/
def residueDistLt (r1 r2 : Residue) (c : ℚ) : Bool :=
  decide (0 ≤ c) && decide (residue_distanceSq r1 r2 < c * c)

/-- An edge of the residue graph: two endpoint residues, edge type and
(squared) distance, exactly the features `build_graph` attaches. -/
structure REdge where
  item1 : Residue
  item2 : Residue
  edge_type : String
  distanceSq : ℚ
deriving DecidableEq, Repr

/-- Two residue-graph edges address the same unordered pair of node keys. -/
def sameRKey (e f : REdge) : Prop :=
  (e.item1.key = f.item1.key ∧ e.item2.key = f.item2.key) ∨
  (e.item1.key = f.item2.key ∧ e.item2.key = f.item1.key)

instance (e f : REdge) : Decidable (sameRKey e f) := by
  unfold sameRKey
  infer_instance

/-- Insert an edge into the residue graph's edge map, keyed by unordered node
key pairs with overwrite semantics (see `upsertQ`). -/
def upsertR (es : List REdge) (f : REdge) : List REdge :=
  match es with
  | [] => [f]
  | g :: rest => if sameRKey g f then f :: rest else g :: upsertR rest f

/-- Python dict assignment on a generic association list: replace the value at
an equal key in place, else append. -/
def upsertAssoc {κ ν : Type} [DecidableEq κ] : List (κ × ν) → κ → ν → List (κ × ν)
  | [], k, v => [(k, v)]
  | (k0, v0) :: rest, k, v =>
    if k0 = k then (k0, v) :: rest else (k0, v0) :: upsertAssoc rest k v

/-- The residue graph under construction: the node map `residues_by_node`
(string node key to residue) together with the edge map. -/
structure RGraph where
  id : String
  nodes : List (String × Residue)
  edges : List REdge
deriving DecidableEq, Repr

/-- Python `set.add` (`residues_from_chain1.add(residue)`): sets are
represented as duplicate-free insertion-ordered lists. -/
def insertResidue (s : List Residue) (r : Residue) : List Residue :=
  if r ∈ s then s else s ++ [r]

/-- One residue's treatment in the chain-separation loop of `build_graph`
(`query.py` lines 296-310): a valid residue is added to the chain-1 set when
its chain id is `chain_id1`, else to the chain-2 set when its chain id is
`chain_id2`; invalid residues are skipped. -/
def addRes (chainPssm : String → List Residue) (c1 c2 : String)
    (s : List Residue × List Residue) (r : Residue) : List Residue × List Residue :=
  if residue_is_valid chainPssm r then
    if r.chain_id = c1 then (insertResidue s.1 r, s.2)
    else if r.chain_id = c2 then (s.1, insertResidue s.2 r)
    else s
  else s

/-- The chain-separation loop of `build_graph`: collect the valid residues of
the interface pairs into the two per-chain sets. -/
def collectSets (chainPssm : String → List Residue) (c1 c2 : String)
    (pairs : List (Residue × Residue)) : List Residue × List Residue :=
  pairs.foldl (fun s pr => addRes chainPssm c1 c2 (addRes chainPssm c1 c2 s pr.1) pr.2)
    ([], [])

/-- One iteration of the interface-edge loop of `build_graph`
(`query.py` lines 319-334): when both residues of the pair are valid, they are
registered in `residues_by_node` and an interface edge carrying the residue
distance is added. -/
def interfaceEdgeStep (chainPssm : String → List Residue)
    (g : RGraph) (pr : Residue × Residue) : RGraph :=
  if residue_is_valid chainPssm pr.1 ∧ residue_is_valid chainPssm pr.2 then
    { g with
      nodes := upsertAssoc (upsertAssoc g.nodes pr.1.key pr.1) pr.2.key pr.2
      edges := upsertR g.edges
        ⟨pr.1, pr.2, EDGETYPE_INTERFACE, residue_distanceSq pr.1 pr.2⟩ }
  else g

/-- All index pairs `(i, j)` with `i < j` of a list, in the order of the
nested loop `for index, r1 in enumerate(lst): for r2 in lst[index + 1:]`. -/
def indexPairs {α : Type} : List α → List (α × α)
  | [] => []
  | a :: rest => (rest.map fun b => (a, b)) ++ indexPairs rest

/-- One iteration of the internal-edge loop of `build_graph`
(`query.py` lines 337-352): a within-chain residue pair below the internal
distance cutoff is registered in `residues_by_node` and contributes an
internal edge. -/
def internalEdgeStep (internal_distance_cutoff : ℚ)
    (g : RGraph) (pr : Residue × Residue) : RGraph :=
  if residueDistLt pr.1 pr.2 internal_distance_cutoff then
    { g with
      nodes := upsertAssoc (upsertAssoc g.nodes pr.1.key pr.1) pr.2.key pr.2
      edges := upsertR g.edges
        ⟨pr.1, pr.2, EDGETYPE_INTERNAL, residue_distanceSq pr.1 pr.2⟩ }
  else g

/-- `ProteinProteinInterfaceResidueQuery.build_graph`
(`query.py` lines 265-352), up to the construction of the graph topology: the
interface pairs are the result of `get_residue_contact_pairs` under the
interface distance cutoff (passed in as `pairs`); an empty pair list raises
`ValueError("no interface residues found")`; otherwise the valid residues are
separated by chain, the interface edges are added for pairs of valid
residues, and the within-chain internal edges are added below the internal
cutoff. The subsequent feature-attachment section only mutates node features
of this topology. -/
def buildGraphInterface (query_id : String) (chainPssm : String → List Residue)
    (chain_id1 chain_id2 : String) (pairs : List (Residue × Residue))
    (internal_distance_cutoff : ℚ) : Except String RGraph :=
  if pairs.length = 0 then Except.error "no interface residues found"
  else
    let sets := collectSets chainPssm chain_id1 chain_id2 pairs
    let g1 := pairs.foldl (interfaceEdgeStep chainPssm) ⟨query_id, [], []⟩
    let g2 := (indexPairs sets.1).foldl (internalEdgeStep internal_distance_cutoff) g1
    let g3 := (indexPairs sets.2).foldl (internalEdgeStep internal_distance_cutoff) g2
    Except.ok g3

/-! ### Identity of `ProteinProteinInterfaceResidueQuery`
(`query.py` lines 235-243) -/

/-- The identifying state of a `ProteinProteinInterfaceResidueQuery`: model id
and the two chain ids. -/
structure PPIQuery where
  model_id : String
  chain_id1 : String
  chain_id2 : String
deriving DecidableEq, Repr

/-- `get_query_id` (`query.py` lines 235-236):
`"{}:{}-{}".format(model_id, chain_id1, chain_id2)`. -/
def PPIQuery.get_query_id (q : PPIQuery) : String :=
  q.model_id ++ ":" ++ q.chain_id1 ++ "-" ++ q.chain_id2

/-- `__eq__` (`query.py` lines 238-240): same type, same model id, and equal
*sets* `{chain_id1, chain_id2}`. -/
def PPIQuery.eq (a b : PPIQuery) : Prop :=
  a.model_id = b.model_id ∧
  ({a.chain_id1, a.chain_id2} : Finset String) = {b.chain_id1, b.chain_id2}

instance (a b : PPIQuery) : Decidable (PPIQuery.eq a b) := by
  unfold PPIQuery.eq
  infer_instance

/-- Python's `sorted([a, b])` for two strings (lexicographic order on code
points, matching `String`'s order on `Char`). -/
def sortedPair (a b : String) : String × String :=
  if b < a then (b, a) else (a, b)

/-- `__hash__` (`query.py` lines 242-243) hashes the tuple
`(model_id, tuple(sorted([chain_id1, chain_id2])))`; since Python's hash is a
function of that tuple, two queries have equal hash values whenever their
hash-input tuples are equal. The embedding carries the tuple itself. -/
def PPIQuery.hash_input (q : PPIQuery) : String × (String × String) :=
  (q.model_id, sortedPair q.chain_id1 q.chain_id2)

/-! ### The deeprankcore conservation model
(`deeprankcore/tools/pssm.py` and `deeprankcore/feature/pssm.py`; the modules
`deeprankcore/models/{amino_acid, pssm, structure, variant}.py` they import
are not among the sources and are modelled from the spec where noted.) -/

/-- An amino acid: name and one-letter code. -/
structure AminoAcid where
  name : String
  one_letter_code : String
deriving DecidableEq, Repr

/-- Modelled from the spec: the list `amino_acids` of
`deeprankcore/models/amino_acid.py` is not among the sources; the
conservation table holds "per-residue, per-amino-acid" scores, so the list
enumerates the 20 standard amino acids with their one-letter codes. -/
def amino_acids : List AminoAcid := [
  ⟨"alanine", "A"⟩, ⟨"arginine", "R"⟩, ⟨"asparagine", "N"⟩, ⟨"aspartate", "D"⟩,
  ⟨"cysteine", "C"⟩, ⟨"glutamate", "E"⟩, ⟨"glutamine", "Q"⟩, ⟨"glycine", "G"⟩,
  ⟨"histidine", "H"⟩, ⟨"isoleucine", "I"⟩, ⟨"leucine", "L"⟩, ⟨"lysine", "K"⟩,
  ⟨"methionine", "M"⟩, ⟨"phenylalanine", "F"⟩, ⟨"proline", "P"⟩, ⟨"serine", "S"⟩,
  ⟨"threonine", "T"⟩, ⟨"tryptophan", "W"⟩, ⟨"tyrosine", "Y"⟩, ⟨"valine", "V"⟩]

/-- `amino_acids_by_letter` of `deeprankcore/tools/pssm.py`: lookup by
one-letter code; an unknown letter raises `KeyError` (`none`). -/
def amino_acids_by_letter (letter : String) : Option AminoAcid :=
  amino_acids.find? fun aa => aa.one_letter_code == letter

/-- A residue as `parse_pssm` constructs it:
`Residue(chain, pdb_residue_number, amino_acid, pdb_insertion_code)` for the
fixed chain of the call. Modelled from the spec where the class is missing:
residue identity is the sequence number, the optional insertion code and the
amino acid, equal iff the full identity tuple matches. -/
structure CResidue where
  number : Int
  insertion_code : Option Char
  amino_acid : AminoAcid
deriving DecidableEq, Repr

/-- `PssmRow` of `deeprankcore/models/pssm.py` (not among the sources).
Modelled from the spec: "a row of (per-amino-acid conservation score,
information-content scalar)". -/
structure PssmRow where
  conservations : List (AminoAcid × ℚ)
  information_content : ℚ
deriving DecidableEq, Repr

/-- `PssmRow.get_conservation`. Modelled from the spec: a keyed lookup whose
"not present" condition (`none`) is distinguishable from a zero score. -/
def PssmRow.get_conservation (row : PssmRow) (aa : AminoAcid) : Option ℚ :=
  (row.conservations.find? fun p => p.1 == aa).map Prod.snd

/-- The column-index map of `parse_pssm` (`tools/pssm.py` lines 26-29), built
by `{name: index for index, name in enumerate(header)}`: for a duplicated
column name the later index wins; a missing name raises `KeyError`
(`none`). -/
def column_indices (header : List String) (name : String) : Option ℕ :=
  ((header.enum.filter fun p => p.2 == name).map Prod.fst).getLast?

/-- `row[i]` on a split data line, with Python's `KeyError`/`IndexError` as
`none`. -/
def rowGet (row : List String) (i : Option ℕ) : Option String :=
  match i with
  | none => none
  | some i => row[i]?

/-- Decimal digits to a natural number; `none` on an empty or non-digit
input. -/
def digitsToNat (cs : List Char) : Option ℕ :=
  if cs = [] then none
  else
    cs.foldl
      (fun acc c =>
        match acc with
        | none => none
        | some n => if c.isDigit then some (n * 10 + (c.toNat - 48)) else none)
      (some 0)

/-- Python's `int()` on a decimal string: an optional sign followed by
digits; anything else raises `ValueError` (`none`). -/
def pyint (s : String) : Option Int :=
  match s.data with
  | '-' :: rest => (digitsToNat rest).map fun n => -(n : Int)
  | '+' :: rest => (digitsToNat rest).map fun n => (n : Int)
  | cs => (digitsToNat cs).map fun n => (n : Int)

/-- The residue-number rule of `parse_pssm` (`tools/pssm.py` lines 39-46): if
the last character of the `pdbresi` field is alphabetic, the integer prefix
is the residue number and the trailing letter the insertion code; otherwise
the whole field is the number and the insertion code is `None`. Python's
`int()` is `pyint`; an empty field raises (`none`). -/
def parse_residue_number (s : String) : Option (Int × Option Char) :=
  match s.data.getLast? with
  | none => none
  | some lastc =>
    if lastc.isAlpha then
      match pyint (s.dropRight 1) with
      | none => none
      | some n => some (n, some lastc)
    else
      match pyint s with
      | none => none
      | some n => some (n, none)

/-- Parse one data line of the PSSM file (`tools/pssm.py` lines 31-58): read
the amino acid from the `pdbresn` column, split the `pdbresi` field with
`parse_residue_number`, read the information content from the `IC` column and
one conservation score per amino acid from that amino acid's
one-letter-code column. `pyfloat` is Python's `float()` text conversion
(floating-point parsing is outside the embedding). -/
def parse_pssm_line (ci : String → Option ℕ) (pyfloat : String → Option ℚ)
    (row : List String) : Option (CResidue × PssmRow) := do
  let letter ← rowGet row (ci "pdbresn")
  let amino_acid ← amino_acids_by_letter letter
  let resfield ← rowGet row (ci "pdbresi")
  let ni ← parse_residue_number resfield
  let icstr ← rowGet row (ci "IC")
  let information_content ← pyfloat icstr
  let conservations ← amino_acids.mapM fun aa => do
    let s ← rowGet row (ci aa.one_letter_code)
    let v ← pyfloat s
    pure (aa, v)
  pure (⟨ni.1, ni.2, amino_acid⟩, ⟨conservations, information_content⟩)

/-- The data-line loop of `parse_pssm`: parse every line in order; any raised
conversion error aborts the whole parse. -/
def parse_pssm_lines (ci : String → Option ℕ) (pyfloat : String → Option ℚ)
    (lines : List (List String)) : Option (List (CResidue × PssmRow)) :=
  lines.mapM (parse_pssm_line ci pyfloat)

/-- `parse_pssm` of `deeprankcore/tools/pssm.py`: read the header into the
column-index map, parse every data line, and collect
`conservation_rows[residue] = PssmRow(...)` into the table — a dictionary
keyed by residue identity, so a duplicated residue overwrites. -/
def parse_pssm (header : List String) (lines : List (List String))
    (pyfloat : String → Option ℚ) : Option (List (CResidue × PssmRow)) := do
  let rows ← parse_pssm_lines (column_indices header) pyfloat lines
  pure (rows.foldl (fun t rp => upsertAssoc t rp.1 rp.2) [])

/-- Dictionary lookup on a generic association list. -/
def lookupAssoc {κ ν : Type} [DecidableEq κ] : List (κ × ν) → κ → Option ν
  | [], _ => none
  | (k0, v0) :: rest, k => if k0 = k then some v0 else lookupAssoc rest k

/-- `profile_amino_acid_order` of `deeprankcore/feature/pssm.py`:
`sorted(amino_acids, key=lambda aa: aa.one_letter_code)`. Python's stable
sort under lexicographic string comparison; string comparison is carried out
on the character lists (the same lexicographic order). -/
def profile_amino_acid_order : List AminoAcid :=
  amino_acids.insertionSort fun a b => a.one_letter_code.data ≤ b.one_letter_code.data

/-- Modelled from the spec: node-feature name tag for the PSSM profile
(`deeprankcore/domain/features/nodefeats.py` is not among the sources). -/
def Nfeat_PSSM : String := "pssm"

/-- Modelled from the spec: node-feature name tag for information content. -/
def Nfeat_INFOCONTENT : String := "info_content"

/-- Modelled from the spec: node-feature name tag for the wildtype
conservation score. -/
def Nfeat_CONSERVATION : String := "conservation"

/-- Modelled from the spec: node-feature name tag for the conservation
difference. -/
def Nfeat_DIFFCONSERVATION : String := "diff_conservation"

/-- The id of a deeprankcore graph node: a residue, or an atom belonging to a
residue (`deeprankcore/models/structure.py` is not among the sources; the
spec's entity model gives the two granularities, each resolving to a residue
for conservation lookups). -/
inductive DNodeId
  | residue (r : CResidue)
  | atom (r : CResidue) (atom_name : String)
deriving DecidableEq, Repr

/-- The residue a node resolves to in `add_features` (`feature/pssm.py` lines
16-24): the residue itself, or the atom's parent residue. -/
def DNodeId.residue_of : DNodeId → CResidue
  | .residue r => r
  | .atom r _ => r

/-- A node of a deeprankcore graph: id plus owned feature mapping. -/
structure DNode where
  id : DNodeId
  features : List (String × FeatValue)
deriving DecidableEq, Repr

/-- `SingleResidueVariant` of `deeprankcore/models/variant.py` (not among the
sources). Modelled from the spec: the variant residue together with its
wildtype and variant amino acids, as `add_features` consumes it. -/
structure SingleResidueVariant where
  residue : CResidue
  wildtype_amino_acid : AminoAcid
  variant_amino_acid : AminoAcid
deriving DecidableEq, Repr

/-- The feature names that one `add_features` pass attaches to every node:
the profile and information content always; the conservation pair whenever a
variant is given (computed on the variant node, zero-filled elsewhere). -/
def addedKeys : Option SingleResidueVariant → List String
  | none => [Nfeat_PSSM, Nfeat_INFOCONTENT]
  | some _ => [Nfeat_PSSM, Nfeat_INFOCONTENT, Nfeat_CONSERVATION, Nfeat_DIFFCONSERVATION]

/-- The loop body of `add_features` (`deeprankcore/feature/pssm.py` lines
16-47) for one node: resolve the node's residue, read the residue's PSSM row
(`pssmOf`, the attached conservation table; a missing row raises), attach the
per-amino-acid profile in `profile_amino_acid_order` and the information
content; when a variant is given, attach the wildtype conservation and the
conservation difference on the variant residue's nodes and explicit zeros on
every other node ("all nodes must have the same features, so set them to zero
here"). -/
def add_features_node (pssmOf : CResidue → Option PssmRow)
    (variant : Option SingleResidueVariant) (node : DNode) : Option DNode := do
    let residue := node.id.residue_of
    let pssm_row ← pssmOf residue
    let profile ← profile_amino_acid_order.mapM fun aa => pssm_row.get_conservation aa
    let fs := upsertAssoc node.features Nfeat_PSSM (FeatValue.vec profile)
    let fs := upsertAssoc fs Nfeat_INFOCONTENT (FeatValue.num pssm_row.information_content)
    match variant with
    | none => pure { node with features := fs }
    | some v =>
      if residue = v.residue then do
        let cw ← pssm_row.get_conservation v.wildtype_amino_acid
        let cv ← pssm_row.get_conservation v.variant_amino_acid
        let fs2 := upsertAssoc fs Nfeat_CONSERVATION (FeatValue.num cw)
        let fs3 := upsertAssoc fs2 Nfeat_DIFFCONSERVATION (FeatValue.num (cv - cw))
        pure { node with features := fs3 }
      else
        let fs2 := upsertAssoc fs Nfeat_CONSERVATION (FeatValue.num 0)
        let fs3 := upsertAssoc fs2 Nfeat_DIFFCONSERVATION (FeatValue.num 0)
        pure { node with features := fs3 }

/-- `add_features` of `deeprankcore/feature/pssm.py`: the per-node pass
`for node in graph.nodes: ...` over the whole graph. -/
def add_features (pssmOf : CResidue → Option PssmRow)
    (variant : Option SingleResidueVariant) (graph : List DNode) :
    Option (List DNode) :=
  graph.mapM (add_features_node pssmOf variant)

/-! Concrete fixtures used by the witness theorems. -/

/-- A carbon-alpha atom at the origin, witness fixture. -/
def wAtomA : Entity := ⟨"A 1 CA", "CA", ⟨0, 0, 0⟩⟩

/-- A carbon-beta atom at distance 1 from `wAtomA`, witness fixture. -/
def wAtomB : Entity := ⟨"A 1 CB", "CB", ⟨1, 0, 0⟩⟩

/-- The edge that `buildGraphAtomic [wAtomA, wAtomB] 2 (1/2) (11/5)` produces,
witness fixture. -/
def wEdgeBA : QEdge := ⟨wAtomB, wAtomA, EDGETYPE_INTERFACE, 1⟩

/-- The contact between the two witness atoms, witness fixture. -/
def wContactAB : Contact := ⟨wAtomA, wAtomB⟩

/-- An edge over `wContactAB` carrying an edge-type feature, witness fixture. -/
def wEdgeFeat : Edge := ⟨wContactAB, [("type", FeatValue.str EDGETYPE_INTERFACE)]⟩

/-- A replacement edge addressing the same unordered pair with the entities in
reversed order, witness fixture. -/
def wEdgeRev : Edge := ⟨⟨wAtomB, wAtomA⟩, []⟩

/-- A graph holding the single edge `wEdgeFeat`, witness fixture. -/
def wGraph : Graph := ⟨"1ATN:A-B", [], [(wContactAB, wEdgeFeat)]⟩

/-- A node wrapping `wAtomA` with one feature, witness fixture. -/
def wNodeA : Node := ⟨wAtomA, [("charge", FeatValue.num 1)]⟩

/-- A graph with one node and one edge, both carrying a feature, witness
fixture. -/
def wGraphMapped : Graph := ⟨"1ATN:A-B", [(wAtomA, wNodeA)], [(wContactAB, wEdgeFeat)]⟩

/-- A `map_features` call that `wGraphMapped.map_to_grid_calls` contains,
witness fixture. -/
def wCall : MapCall := ⟨wAtomA.position, "type", FeatValue.str EDGETYPE_INTERFACE⟩

/-- A valid residue on chain A, witness fixture. -/
def wResA : Residue := ⟨"A", 1, none, some "ALA", "A 1", [⟨0, 0, 0⟩]⟩

/-- A valid residue on chain B, witness fixture. -/
def wResB : Residue := ⟨"B", 2, none, some "GLY", "B 2", [⟨1, 0, 0⟩]⟩

/-- A residue on chain B with an unknown amino acid (hence invalid), witness
fixture. -/
def wResBad : Residue := ⟨"B", 3, none, none, "B 3", [⟨2, 0, 0⟩]⟩

/-- Per-chain PSSM tables containing `wResA` and `wResB`, witness fixture. -/
def wChainPssm : String → List Residue :=
  fun c => if c = "A" then [wResA] else [wResB]

/-- Alanine, witness fixture. -/
def wAla : AminoAcid := ⟨"alanine", "A"⟩

/-- Glycine, witness fixture. -/
def wGly : AminoAcid := ⟨"glycine", "G"⟩

/-- The variant residue of the conservation fixtures. -/
def wCRes1 : CResidue := ⟨10, none, wAla⟩

/-- A non-variant residue of the conservation fixtures. -/
def wCRes2 : CResidue := ⟨11, none, wGly⟩

/-- A full PSSM row: score 1 for alanine, 0 elsewhere, information content 3.
Witness fixture. -/
def wRow : PssmRow :=
  ⟨amino_acids.map fun aa => (aa, if aa.one_letter_code = "A" then 1 else 0), 3⟩

/-- A total conservation table returning `wRow` for every residue, witness
fixture. -/
def wPssmOf : CResidue → Option PssmRow := fun r =>
  if r.number = 10 ∨ r.number = 11 then some wRow else none

/-- A single-residue variant at `wCRes1` (alanine to glycine), witness
fixture. -/
def wVariant : SingleResidueVariant := ⟨wCRes1, wAla, wGly⟩

/-- A two-node deeprankcore graph: the variant residue's node and an atom
node of another residue, both with empty feature maps. Witness fixture. -/
def wDGraph : List DNode :=
  [⟨DNodeId.residue wCRes1, []⟩, ⟨DNodeId.atom wCRes2 "CA", []⟩]

/-- A PSSM header: the two residue columns, one column per amino-acid
one-letter code and the information-content column. Witness fixture. -/
def wHeader : List String :=
  ["pdbresi", "pdbresn", "A", "R", "N", "D", "C", "E", "Q", "G", "H", "I",
   "L", "K", "M", "F", "P", "S", "T", "W", "Y", "V", "IC"]

/-- One PSSM data line: cysteine at residue 42 with insertion code A, score 1
on the C column, information content 3. Witness fixture. -/
def wLine : List String :=
  ["42A", "C", "0", "0", "0", "0", "1", "0", "0", "0", "0", "0",
   "0", "0", "0", "0", "0", "0", "0", "0", "0", "0", "3"]

/-- Python's `float()` restricted to integer literals, witness fixture. -/
def wFloat : String → Option ℚ := fun s => (pyint s).map fun n => (n : ℚ)

/-! ## Lemmas -/

theorem mem_upsertQ {es : List QEdge} {f e : QEdge} (h : e ∈ upsertQ es f) :
    e ∈ es ∨ e = f := by
  induction es with
  | nil =>
    right
    simpa [upsertQ] using h
  | cons g rest ih =>
    rw [upsertQ] at h
    split at h
    · rcases List.mem_cons.mp h with h1 | h1
      · right; exact h1
      · left; exact List.mem_cons_of_mem _ h1
    · rcases List.mem_cons.mp h with h1 | h1
      · left; rw [h1]; exact List.mem_cons_self _ _
      · rcases ih h1 with h2 | h2
        · left; exact List.mem_cons_of_mem _ h2
        · right; exact h2

theorem mem_foldl_atomicStep (nonbonded bonded disulfid : ℚ) :
    ∀ (pairs : List ((ℕ × Entity) × (ℕ × Entity))) (acc : List QEdge) (e : QEdge),
      e ∈ pairs.foldl (atomicStep nonbonded bonded disulfid) acc →
      e ∈ acc ∨ ∃ pp ∈ pairs,
        distLtCutoff pp.1.2.position pp.2.2.position nonbonded = true ∧
        pp.1.1 ≠ pp.2.1 ∧ e = atomicEdgeOf bonded disulfid pp.1.2 pp.2.2 := by
  intro pairs
  induction pairs with
  | nil =>
    intro acc e h
    left
    simpa using h
  | cons pp rest ih =>
    intro acc e h
    rw [List.foldl_cons] at h
    rcases ih _ e h with hacc | ⟨qq, hqq, hc⟩
    · rw [atomicStep] at hacc
      split at hacc
      · split at hacc
        · rcases mem_upsertQ hacc with h1 | h1
          · left; exact h1
          · right
            refine ⟨pp, List.mem_cons_self _ _, ?_, ?_, h1⟩ <;> assumption
        · left; exact hacc
      · left; exact hacc
    · right
      exact ⟨qq, List.mem_cons_of_mem _ hqq, hc⟩

theorem mem_atomPairList {atoms : List Entity} {pp : (ℕ × Entity) × (ℕ × Entity)}
    (h : pp ∈ atomPairList atoms) : pp.1 ∈ atoms.enum ∧ pp.2 ∈ atoms.enum := by
  rw [atomPairList] at h
  rcases List.mem_flatMap.mp h with ⟨p1, hp1, hmem⟩
  rcases List.mem_map.mp hmem with ⟨p2, hp2, hpp⟩
  rw [← hpp]
  exact ⟨hp1, hp2⟩

theorem nodup_atoms_enum_ne {atoms : List Entity} (hnd : atoms.Nodup)
    {i j : ℕ} {a b : Entity} (hi : (i, a) ∈ atoms.enum) (hj : (j, b) ∈ atoms.enum)
    (hij : i ≠ j) : a ≠ b := by
  rw [List.mem_enum_iff_getElem?] at hi hj
  intro hab
  have hilt : i < atoms.length := by
    by_contra hk
    rw [List.getElem?_eq_none (by omega)] at hi
    exact Option.noConfusion hi
  have hjlt : j < atoms.length := by
    by_contra hk
    rw [List.getElem?_eq_none (by omega)] at hj
    exact Option.noConfusion hj
  rw [List.getElem?_eq_getElem hilt] at hi
  rw [List.getElem?_eq_getElem hjlt] at hj
  have ha : atoms[i] = a := Option.some_inj.mp hi
  have hb : atoms[j] = b := Option.some_inj.mp hj
  have hg : atoms.get ⟨i, hilt⟩ = atoms.get ⟨j, hjlt⟩ := by
    rw [List.get_eq_getElem, List.get_eq_getElem]
    simp only [ha, hb, hab]
  have hfin := hnd.get_inj_iff.mp hg
  exact hij (congrArg Fin.val hfin)

theorem sameUnorderedKey_trans {e f g : QEdge}
    (h1 : sameUnorderedKey e f) (h2 : sameUnorderedKey f g) : sameUnorderedKey e g := by
  rcases h1 with ⟨a1, a2⟩ | ⟨a1, a2⟩ <;> rcases h2 with ⟨b1, b2⟩ | ⟨b1, b2⟩
  · exact Or.inl ⟨a1.trans b1, a2.trans b2⟩
  · exact Or.inr ⟨a1.trans b1, a2.trans b2⟩
  · exact Or.inr ⟨a1.trans b2, a2.trans b1⟩
  · exact Or.inl ⟨a1.trans b2, a2.trans b1⟩

theorem pairwise_distinct_upsertQ {es : List QEdge} {f : QEdge}
    (h : es.Pairwise fun a b => ¬ sameUnorderedKey a b) :
    (upsertQ es f).Pairwise fun a b => ¬ sameUnorderedKey a b := by
  induction es with
  | nil => simp [upsertQ]
  | cons g rest ih =>
    rw [List.pairwise_cons] at h
    obtain ⟨hg, htail⟩ := h
    rw [upsertQ]
    split
    · rename_i hk
      rw [List.pairwise_cons]
      refine ⟨?_, htail⟩
      intro x hx hfx
      exact hg x hx (sameUnorderedKey_trans hk hfx)
    · rename_i hk
      rw [List.pairwise_cons]
      refine ⟨?_, ih htail⟩
      intro x hx
      rcases mem_upsertQ hx with h1 | h1
      · exact hg x h1
      · rw [h1]; exact hk

theorem pairwise_foldl_atomicStep (nonbonded bonded disulfid : ℚ) :
    ∀ (pairs : List ((ℕ × Entity) × (ℕ × Entity))) (acc : List QEdge),
      (acc.Pairwise fun a b => ¬ sameUnorderedKey a b) →
      ((pairs.foldl (atomicStep nonbonded bonded disulfid) acc).Pairwise
        fun a b => ¬ sameUnorderedKey a b) := by
  intro pairs
  induction pairs with
  | nil =>
    intro acc h
    simpa using h
  | cons pp rest ih =>
    intro acc h
    rw [List.foldl_cons]
    apply ih
    rw [atomicStep]
    split
    · split
      · exact pairwise_distinct_upsertQ h
      · exact h
    · exact h

theorem nodup_keys_enum_ne {atoms : List Entity} (hnd : (atoms.map Entity.key).Nodup)
    {i j : ℕ} {a b : Entity} (hi : (i, a) ∈ atoms.enum) (hj : (j, b) ∈ atoms.enum)
    (hij : i ≠ j) : a.key ≠ b.key := by
  rw [List.mem_enum_iff_getElem?] at hi hj
  intro hab
  have hilt : i < atoms.length := by
    by_contra hk
    rw [List.getElem?_eq_none (by omega)] at hi
    exact Option.noConfusion hi
  have hjlt : j < atoms.length := by
    by_contra hk
    rw [List.getElem?_eq_none (by omega)] at hj
    exact Option.noConfusion hj
  rw [List.getElem?_eq_getElem hilt] at hi
  rw [List.getElem?_eq_getElem hjlt] at hj
  have ha : atoms[i] = a := Option.some_inj.mp hi
  have hb : atoms[j] = b := Option.some_inj.mp hj
  have hilt2 : i < (atoms.map Entity.key).length := by simpa using hilt
  have hjlt2 : j < (atoms.map Entity.key).length := by simpa using hjlt
  have hg : (atoms.map Entity.key).get ⟨i, hilt2⟩ = (atoms.map Entity.key).get ⟨j, hjlt2⟩ := by
    rw [List.get_eq_getElem, List.get_eq_getElem]
    simp only [List.getElem_map]
    rw [ha, hb, hab]
  have hfin := hnd.get_inj_iff.mp hg
  exact hij (congrArg Fin.val hfin)

theorem upsertEdge_overwrite :
    ∀ (es : List (Contact × Edge)) (k : Contact) (v : Edge),
      (edgeLookup es k).isSome = true →
      (upsertEdge es k v).length = es.length ∧
      edgeLookup (upsertEdge es k v) k = some v := by
  intro es
  induction es with
  | nil =>
    intro k v h
    simp [edgeLookup] at h
  | cons p rest ih =>
    intro k v h
    obtain ⟨k0, v0⟩ := p
    by_cases hk : contactEq k0 k
    · refine ⟨by simp [upsertEdge, hk], ?_⟩
      rw [upsertEdge, if_pos hk, edgeLookup, if_pos hk]
    · rw [edgeLookup, if_neg hk] at h
      obtain ⟨h1, h2⟩ := ih k v h
      refine ⟨by simp [upsertEdge, hk, h1], ?_⟩
      rw [upsertEdge, if_neg hk, edgeLookup, if_neg hk]
      exact h2

/-- **C1**: in atomic mode, every pair of distinct atoms turned into an edge by
`SingleResidueVariantAtomicQuery.build_graph` has Euclidean distance strictly
below the nonbonded cutoff and distinct endpoints, and the edge is classified
internal if and only if the distance is below the bonded cutoff or both atoms
are named "SG" and the distance is below the disulfid cutoff; otherwise it is
classified interface. -/
theorem atomic_build_graph_edges_classified
    (atoms : List Entity) (nonbonded bonded disulfid : ℚ)
    (hnd : atoms.Nodup) (e : QEdge)
    (he : e ∈ buildGraphAtomic atoms nonbonded bonded disulfid) :
    distLtCutoff e.item1.position e.item2.position nonbonded = true ∧
    e.item1 ≠ e.item2 ∧
    (e.edge_type = EDGETYPE_INTERNAL ∨ e.edge_type = EDGETYPE_INTERFACE) ∧
    (e.edge_type = EDGETYPE_INTERNAL ↔
      (distLtCutoff e.item1.position e.item2.position bonded = true ∨
       (e.item1.name = "SG" ∧ e.item2.name = "SG" ∧
        distLtCutoff e.item1.position e.item2.position disulfid = true))) := by
  rcases mem_foldl_atomicStep nonbonded bonded disulfid _ _ _ he with
    h0 | ⟨pp, hpp, hd, hij, he2⟩
  · simp at h0
  rcases mem_atomPairList hpp with ⟨h1, h2⟩
  obtain ⟨⟨i, a1⟩, ⟨j, a2⟩⟩ := pp
  dsimp only at hd hij h1 h2 he2
  have hne : a1 ≠ a2 := nodup_atoms_enum_ne hnd h1 h2 hij
  subst he2
  simp only [atomicEdgeOf]
  refine ⟨hd, hne, ?_⟩
  rw [atomicEdgeType]
  split
  · rename_i hb
    exact ⟨Or.inl rfl, ⟨fun _ => Or.inl hb, fun _ => rfl⟩⟩
  · rename_i hb
    split
    · rename_i hsg
      exact ⟨Or.inl rfl, ⟨fun _ => Or.inr hsg, fun _ => rfl⟩⟩
    · rename_i hsg
      refine ⟨Or.inr rfl, ?_⟩
      constructor
      · intro hcontra
        exact absurd hcontra (by simp [EDGETYPE_INTERFACE, EDGETYPE_INTERNAL])
      · intro hrhs
        rcases hrhs with h | h
        · exact absurd h hb
        · exact absurd h hsg

/-- Witness for **C1**: the concrete two-atom system `[wAtomA, wAtomB]` with
cutoffs `2`, `1/2`, `11/5` produces the interface edge `wEdgeBA`, which
satisfies all the guarantees of the theorem. -/
theorem atomic_build_graph_edges_classified_witness :
    distLtCutoff wEdgeBA.item1.position wEdgeBA.item2.position 2 = true ∧
    wEdgeBA.item1 ≠ wEdgeBA.item2 ∧
    (wEdgeBA.edge_type = EDGETYPE_INTERNAL ∨ wEdgeBA.edge_type = EDGETYPE_INTERFACE) ∧
    (wEdgeBA.edge_type = EDGETYPE_INTERNAL ↔
      (distLtCutoff wEdgeBA.item1.position wEdgeBA.item2.position (1/2) = true ∨
       (wEdgeBA.item1.name = "SG" ∧ wEdgeBA.item2.name = "SG" ∧
        distLtCutoff wEdgeBA.item1.position wEdgeBA.item2.position (11/5) = true))) :=
  atomic_build_graph_edges_classified [wAtomA, wAtomB] 2 (1/2) (11/5)
    (by decide) wEdgeBA
    (by norm_num +decide [buildGraphAtomic, atomPairList, List.enum, List.enumFrom,
      atomicStep, distLtCutoff, distSq, wAtomA, wAtomB, wEdgeBA, upsertQ,
      sameUnorderedKey, atomicEdgeOf, atomicEdgeType, EDGETYPE_INTERNAL,
      EDGETYPE_INTERFACE])

/-- **C5**: a built graph never contains a self-edge and never two distinct
edges for the same unordered pair — every edge produced by the atomic builder
has two distinct endpoint keys, the produced edge list is pairwise distinct on
unordered key pairs, and `Graph.add_edge` for an already-present contact
overwrites the existing entry (same edge count, lookup returns the new edge)
instead of adding a duplicate. -/
theorem graph_no_self_edge_unique_unordered_pairs
    (atoms : List Entity) (nonbonded bonded disulfid : ℚ)
    (g : Graph) (enew : Edge) (f : QEdge)
    (hnd : (atoms.map Entity.key).Nodup)
    (hf : f ∈ buildGraphAtomic atoms nonbonded bonded disulfid)
    (hmem : containsContact g enew.id = true) :
    f.item1.key ≠ f.item2.key ∧
    ((buildGraphAtomic atoms nonbonded bonded disulfid).Pairwise
      fun a b => ¬ sameUnorderedKey a b) ∧
    (g.add_edge enew).edges.length = g.edges.length ∧
    edgeLookup (g.add_edge enew).edges enew.id = some enew := by
  refine ⟨?_, ?_, ?_, ?_⟩
  · rcases mem_foldl_atomicStep nonbonded bonded disulfid _ _ _ hf with
      h0 | ⟨pp, hpp, _, hij, he2⟩
    · simp at h0
    rcases mem_atomPairList hpp with ⟨h1, h2⟩
    obtain ⟨⟨i, a1⟩, ⟨j, a2⟩⟩ := pp
    dsimp only at hij h1 h2 he2
    have hne := nodup_keys_enum_ne hnd h1 h2 hij
    rw [he2]
    exact hne
  · exact pairwise_foldl_atomicStep nonbonded bonded disulfid _ _ List.Pairwise.nil
  · exact (upsertEdge_overwrite g.edges enew.id enew hmem).1
  · exact (upsertEdge_overwrite g.edges enew.id enew hmem).2

/-- Witness for **C5**: the two-atom system yields the single edge `wEdgeBA`
with distinct keys, and re-adding an edge for the reversed contact pair into
the one-edge graph `wGraph` overwrites its entry. -/
theorem graph_no_self_edge_unique_unordered_pairs_witness :
    wEdgeBA.item1.key ≠ wEdgeBA.item2.key ∧
    ((buildGraphAtomic [wAtomA, wAtomB] 2 (1/2) (11/5)).Pairwise
      fun a b => ¬ sameUnorderedKey a b) ∧
    (wGraph.add_edge wEdgeRev).edges.length = wGraph.edges.length ∧
    edgeLookup (wGraph.add_edge wEdgeRev).edges wEdgeRev.id = some wEdgeRev :=
  graph_no_self_edge_unique_unordered_pairs [wAtomA, wAtomB] 2 (1/2) (11/5)
    wGraph wEdgeRev wEdgeBA
    (by decide)
    (by norm_num +decide [buildGraphAtomic, atomPairList, List.enum, List.enumFrom,
      atomicStep, distLtCutoff, distSq, wAtomA, wAtomB, wEdgeBA, upsertQ,
      sameUnorderedKey, atomicEdgeOf, atomicEdgeType, EDGETYPE_INTERNAL,
      EDGETYPE_INTERFACE])
    (by norm_num +decide [containsContact, edgeLookup, wGraph, wEdgeRev, wContactAB,
      contactEq, wAtomA, wAtomB, wEdgeFeat])

/-- **C9**: `Graph.get_edge` references the undefined name `edge` in its body,
so for every graph and every contact it raises `NameError` and never returns
an edge — even for a contact whose edge was previously added with
`Graph.add_edge`. -/
theorem get_edge_always_raises (g : Graph) (e : Edge) (id_ : Contact) :
    Graph.get_edge g id_ = Except.error "NameError: name edge is not defined" ∧
    Graph.get_edge (g.add_edge e) id_ =
      Except.error "NameError: name edge is not defined" ∧
    ∀ ed : Edge, Graph.get_edge (g.add_edge e) e.id ≠ Except.ok ed := by
  refine ⟨rfl, rfl, ?_⟩
  intro ed h
  rw [Graph.get_edge] at h
  exact Except.noConfusion h

theorem length_flatMap_pair {α β : Type} (fs : List α) (f g : α → β) :
    (fs.flatMap fun fv => [f fv, g fv]).length = 2 * fs.length := by
  induction fs with
  | nil => simp
  | cons a rest ih =>
    rw [List.flatMap_cons, List.length_append, ih]
    simp
    omega

theorem length_edge_calls (es : List (Contact × Edge)) :
    (es.flatMap fun p =>
      p.2.features.flatMap fun fv =>
        [(⟨p.2.position1, fv.1, fv.2⟩ : MapCall), ⟨p.2.position2, fv.1, fv.2⟩]).length =
    2 * (es.map fun p => p.2.features.length).sum := by
  induction es with
  | nil => simp
  | cons p rest ih =>
    rw [List.flatMap_cons, List.length_append, ih, length_flatMap_pair]
    simp
    ring

theorem length_node_calls (ns : List (Entity × Node)) :
    (ns.flatMap fun p =>
      p.2.features.map fun fv => (⟨p.2.position, fv.1, fv.2⟩ : MapCall)).length =
    (ns.map fun p => p.2.features.length).sum := by
  induction ns with
  | nil => simp
  | cons p rest ih =>
    rw [List.flatMap_cons, List.length_append, ih]
    simp

/-- **C3**: when a graph is mapped onto a grid, every edge contributes each of
its feature values once at `position1` and once at `position2` (never at a
midpoint: every call the mapping pass performs is located at an edge endpoint
or a node position), and every node contributes each of its feature values
exactly once at its own position — the total number of `map_features` calls
is twice the edge-feature count plus the node-feature count. -/
theorem map_to_grid_edge_features_at_both_endpoints
    (g : Graph) (pe : Contact × Edge) (fe : String × FeatValue)
    (pn : Entity × Node) (fn : String × FeatValue) (c : MapCall)
    (he : pe ∈ g.edges) (hfe : fe ∈ pe.2.features)
    (hn : pn ∈ g.nodes) (hfn : fn ∈ pn.2.features)
    (hc : c ∈ g.map_to_grid_calls) :
    (⟨pe.2.position1, fe.1, fe.2⟩ : MapCall) ∈ g.map_to_grid_calls ∧
    (⟨pe.2.position2, fe.1, fe.2⟩ : MapCall) ∈ g.map_to_grid_calls ∧
    (⟨pn.2.position, fn.1, fn.2⟩ : MapCall) ∈ g.map_to_grid_calls ∧
    ((∃ p ∈ g.edges, ∃ fv ∈ p.2.features,
        c = (⟨p.2.position1, fv.1, fv.2⟩ : MapCall) ∨
        c = (⟨p.2.position2, fv.1, fv.2⟩ : MapCall)) ∨
     (∃ p ∈ g.nodes, ∃ fv ∈ p.2.features,
        c = (⟨p.2.position, fv.1, fv.2⟩ : MapCall))) ∧
    g.map_to_grid_calls.length =
      2 * (g.edges.map fun p => p.2.features.length).sum +
      (g.nodes.map fun p => p.2.features.length).sum := by
  refine ⟨?_, ?_, ?_, ?_, ?_⟩
  · rw [Graph.map_to_grid_calls, List.mem_append]
    left
    rw [List.mem_flatMap]
    exact ⟨pe, he, by rw [List.mem_flatMap]; exact ⟨fe, hfe, by simp⟩⟩
  · rw [Graph.map_to_grid_calls, List.mem_append]
    left
    rw [List.mem_flatMap]
    exact ⟨pe, he, by rw [List.mem_flatMap]; exact ⟨fe, hfe, by simp⟩⟩
  · rw [Graph.map_to_grid_calls, List.mem_append]
    right
    rw [List.mem_flatMap]
    exact ⟨pn, hn, List.mem_map.mpr ⟨fn, hfn, rfl⟩⟩
  · rw [Graph.map_to_grid_calls, List.mem_append] at hc
    rcases hc with hc | hc
    · left
      rcases List.mem_flatMap.mp hc with ⟨p, hp, hinner⟩
      rcases List.mem_flatMap.mp hinner with ⟨fv, hfv, hcc⟩
      refine ⟨p, hp, fv, hfv, ?_⟩
      rcases List.mem_cons.mp hcc with h1 | h1
      · exact Or.inl h1
      · exact Or.inr (by simpa using h1)
    · right
      rcases List.mem_flatMap.mp hc with ⟨p, hp, hinner⟩
      rcases List.mem_map.mp hinner with ⟨fv, hfv, hcc⟩
      exact ⟨p, hp, fv, hfv, hcc.symm⟩
  · rw [Graph.map_to_grid_calls, List.length_append, length_edge_calls, length_node_calls]

/-- Witness for **C3**: a one-node, one-edge graph, its edge feature mapped at
both endpoints and its node feature mapped once. -/
theorem map_to_grid_edge_features_at_both_endpoints_witness :
    (⟨wEdgeFeat.position1, "type", FeatValue.str EDGETYPE_INTERFACE⟩ : MapCall) ∈
      wGraphMapped.map_to_grid_calls ∧
    (⟨wEdgeFeat.position2, "type", FeatValue.str EDGETYPE_INTERFACE⟩ : MapCall) ∈
      wGraphMapped.map_to_grid_calls ∧
    (⟨wNodeA.position, "charge", FeatValue.num 1⟩ : MapCall) ∈
      wGraphMapped.map_to_grid_calls ∧
    ((∃ p ∈ wGraphMapped.edges, ∃ fv ∈ p.2.features,
        wCall = (⟨p.2.position1, fv.1, fv.2⟩ : MapCall) ∨
        wCall = (⟨p.2.position2, fv.1, fv.2⟩ : MapCall)) ∨
     (∃ p ∈ wGraphMapped.nodes, ∃ fv ∈ p.2.features,
        wCall = (⟨p.2.position, fv.1, fv.2⟩ : MapCall))) ∧
    wGraphMapped.map_to_grid_calls.length =
      2 * (wGraphMapped.edges.map fun p => p.2.features.length).sum +
      (wGraphMapped.nodes.map fun p => p.2.features.length).sum :=
  map_to_grid_edge_features_at_both_endpoints wGraphMapped
    (wContactAB, wEdgeFeat) ("type", FeatValue.str EDGETYPE_INTERFACE)
    (wAtomA, wNodeA) ("charge", FeatValue.num 1) wCall
    (by decide) (by decide) (by decide) (by decide)
    (by decide)

/-- **C6**: for every graph with at least one node whose node dictionary is
well-formed (each node is stored under its own id, the invariant `add_node`
maintains), the grid produced by the `to_hdf5_cnn` export path is centered at
the arithmetic mean of all node positions of the graph. -/
theorem to_hdf5_cnn_grid_center_is_centroid
    (g : Graph) (settings : GridSettings)
    (hne : g.nodes ≠ [])
    (hkeys : ∀ p ∈ g.nodes, p.1 = p.2.id) :
    (g.to_hdf5_cnn_grid settings).center = g.centroid := by
  rw [Graph.to_hdf5_cnn_grid, Graph.centroid]
  have hmap : (g.nodes.map fun p => p.1.position) = g.nodes.map fun p => p.2.position := by
    apply List.map_congr_left
    intro p hp
    rw [hkeys p hp, Node.position]
  rw [hmap]

/-- Witness for **C6**: the one-node graph `wGraphMapped`. -/
theorem to_hdf5_cnn_grid_center_is_centroid_witness :
    (wGraphMapped.to_hdf5_cnn_grid ⟨20, 1⟩).center = wGraphMapped.centroid :=
  to_hdf5_cnn_grid_center_is_centroid wGraphMapped ⟨20, 1⟩
    (by decide) (by decide)

theorem mem_upsertAssoc {κ ν : Type} [DecidableEq κ]
    {ns : List (κ × ν)} {k : κ} {v : ν} {p : κ × ν}
    (h : p ∈ upsertAssoc ns k v) : p ∈ ns ∨ p.2 = v := by
  induction ns with
  | nil =>
    right
    rw [upsertAssoc] at h
    rcases List.mem_singleton.mp h with h1
    rw [h1]
  | cons q rest ih =>
    obtain ⟨k0, v0⟩ := q
    rw [upsertAssoc] at h
    split at h
    · rcases List.mem_cons.mp h with h1 | h1
      · right; rw [h1]
      · left; exact List.mem_cons_of_mem _ h1
    · rcases List.mem_cons.mp h with h1 | h1
      · left; rw [h1]; exact List.mem_cons_self _ _
      · rcases ih h1 with h2 | h2
        · left; exact List.mem_cons_of_mem _ h2
        · right; exact h2

theorem mem_upsertR {es : List REdge} {f e : REdge} (h : e ∈ upsertR es f) :
    e ∈ es ∨ e = f := by
  induction es with
  | nil =>
    right
    simpa [upsertR] using h
  | cons g rest ih =>
    rw [upsertR] at h
    split at h
    · rcases List.mem_cons.mp h with h1 | h1
      · right; exact h1
      · left; exact List.mem_cons_of_mem _ h1
    · rcases List.mem_cons.mp h with h1 | h1
      · left; rw [h1]; exact List.mem_cons_self _ _
      · rcases ih h1 with h2 | h2
        · left; exact List.mem_cons_of_mem _ h2
        · right; exact h2

theorem mem_insertResidue {s : List Residue} {x r : Residue}
    (h : r ∈ insertResidue s x) : r ∈ s ∨ r = x := by
  rw [insertResidue] at h
  split at h
  · left; exact h
  · rcases List.mem_append.mp h with h1 | h1
    · left; exact h1
    · right; exact List.mem_singleton.mp h1

theorem addRes_valid {chainPssm : String → List Residue} {c1 c2 : String}
    {s : List Residue × List Residue} {x : Residue}
    (h1 : ∀ r ∈ s.1, residue_is_valid chainPssm r = true)
    (h2 : ∀ r ∈ s.2, residue_is_valid chainPssm r = true) :
    (∀ r ∈ (addRes chainPssm c1 c2 s x).1, residue_is_valid chainPssm r = true) ∧
    (∀ r ∈ (addRes chainPssm c1 c2 s x).2, residue_is_valid chainPssm r = true) := by
  rw [addRes]
  split
  · rename_i hv
    split
    · refine ⟨?_, h2⟩
      intro r hr
      rcases mem_insertResidue hr with h3 | h3
      · exact h1 r h3
      · rw [h3]; exact hv
    · split
      · refine ⟨h1, ?_⟩
        intro r hr
        rcases mem_insertResidue hr with h3 | h3
        · exact h2 r h3
        · rw [h3]; exact hv
      · exact ⟨h1, h2⟩
  · exact ⟨h1, h2⟩

theorem collectSets_valid (chainPssm : String → List Residue) (c1 c2 : String) :
    ∀ (pairs : List (Residue × Residue)) (s : List Residue × List Residue),
      (∀ r ∈ s.1, residue_is_valid chainPssm r = true) →
      (∀ r ∈ s.2, residue_is_valid chainPssm r = true) →
      (∀ r ∈ (pairs.foldl
          (fun s pr => addRes chainPssm c1 c2 (addRes chainPssm c1 c2 s pr.1) pr.2) s).1,
        residue_is_valid chainPssm r = true) ∧
      (∀ r ∈ (pairs.foldl
          (fun s pr => addRes chainPssm c1 c2 (addRes chainPssm c1 c2 s pr.1) pr.2) s).2,
        residue_is_valid chainPssm r = true) := by
  intro pairs
  induction pairs with
  | nil =>
    intro s h1 h2
    exact ⟨h1, h2⟩
  | cons pr rest ih =>
    intro s h1 h2
    rw [List.foldl_cons]
    obtain ⟨h3, h4⟩ := @addRes_valid chainPssm c1 c2 s pr.1 h1 h2
    obtain ⟨h5, h6⟩ := @addRes_valid chainPssm c1 c2 _ pr.2 h3 h4
    exact ih _ h5 h6

theorem mem_indexPairs {α : Type} :
    ∀ {l : List α} {pr : α × α}, pr ∈ indexPairs l → pr.1 ∈ l ∧ pr.2 ∈ l := by
  intro l
  induction l with
  | nil =>
    intro pr h
    simp [indexPairs] at h
  | cons a rest ih =>
    intro pr h
    rw [indexPairs] at h
    rcases List.mem_append.mp h with h1 | h1
    · rcases List.mem_map.mp h1 with ⟨b, hb, hpr⟩
      rw [← hpr]
      exact ⟨List.mem_cons_self _ _, List.mem_cons_of_mem _ hb⟩
    · obtain ⟨hh1, hh2⟩ := ih h1
      exact ⟨List.mem_cons_of_mem _ hh1, List.mem_cons_of_mem _ hh2⟩

theorem interface_fold_valid (chainPssm : String → List Residue) :
    ∀ (pairs : List (Residue × Residue)) (acc : RGraph),
      (∀ p ∈ acc.nodes, residue_is_valid chainPssm p.2 = true) →
      (∀ e ∈ acc.edges, residue_is_valid chainPssm e.item1 = true ∧
        residue_is_valid chainPssm e.item2 = true) →
      (∀ p ∈ (pairs.foldl (interfaceEdgeStep chainPssm) acc).nodes,
        residue_is_valid chainPssm p.2 = true) ∧
      (∀ e ∈ (pairs.foldl (interfaceEdgeStep chainPssm) acc).edges,
        residue_is_valid chainPssm e.item1 = true ∧
        residue_is_valid chainPssm e.item2 = true) := by
  intro pairs
  induction pairs with
  | nil =>
    intro acc h1 h2
    exact ⟨h1, h2⟩
  | cons pr rest ih =>
    intro acc h1 h2
    rw [List.foldl_cons]
    apply ih
    · intro p hp
      rw [interfaceEdgeStep] at hp
      split at hp
      · rename_i hv
        dsimp only at hp
        rcases mem_upsertAssoc hp with hp1 | hp1
        · rcases mem_upsertAssoc hp1 with hp2 | hp2
          · exact h1 p hp2
          · rw [hp2]; exact hv.1
        · rw [hp1]; exact hv.2
      · exact h1 p hp
    · intro e he
      rw [interfaceEdgeStep] at he
      split at he
      · rename_i hv
        dsimp only at he
        rcases mem_upsertR he with he1 | he1
        · exact h2 e he1
        · rw [he1]; exact hv
      · exact h2 e he

theorem internal_fold_valid (chainPssm : String → List Residue) (cutoff : ℚ) :
    ∀ (ps : List (Residue × Residue)) (acc : RGraph),
      (∀ pr ∈ ps, residue_is_valid chainPssm pr.1 = true ∧
        residue_is_valid chainPssm pr.2 = true) →
      (∀ p ∈ acc.nodes, residue_is_valid chainPssm p.2 = true) →
      (∀ e ∈ acc.edges, residue_is_valid chainPssm e.item1 = true ∧
        residue_is_valid chainPssm e.item2 = true) →
      (∀ p ∈ (ps.foldl (internalEdgeStep cutoff) acc).nodes,
        residue_is_valid chainPssm p.2 = true) ∧
      (∀ e ∈ (ps.foldl (internalEdgeStep cutoff) acc).edges,
        residue_is_valid chainPssm e.item1 = true ∧
        residue_is_valid chainPssm e.item2 = true) := by
  intro ps
  induction ps with
  | nil =>
    intro acc _ h1 h2
    exact ⟨h1, h2⟩
  | cons pr rest ih =>
    intro acc hps h1 h2
    rw [List.foldl_cons]
    have hpr := hps pr (List.mem_cons_self _ _)
    apply ih
    · intro q hq
      exact hps q (List.mem_cons_of_mem _ hq)
    · intro p hp
      rw [internalEdgeStep] at hp
      split at hp
      · dsimp only at hp
        rcases mem_upsertAssoc hp with hp1 | hp1
        · rcases mem_upsertAssoc hp1 with hp2 | hp2
          · exact h1 p hp2
          · rw [hp2]; exact hpr.1
        · rw [hp1]; exact hpr.2
      · exact h1 p hp
    · intro e he
      rw [internalEdgeStep] at he
      split at he
      · dsimp only at he
        rcases mem_upsertR he with he1 | he1
        · exact h2 e he1
        · rw [he1]; exact hpr
      · exact h2 e he

/-- **C4**: if contact detection yields zero qualifying residue pairs for an
interface query, `ProteinProteinInterfaceResidueQuery.build_graph` raises
`ValueError("no interface residues found")` immediately and never returns a
graph (in particular, never an empty one). -/
theorem interface_query_empty_pairs_raises
    (query_id : String) (chainPssm : String → List Residue)
    (chain_id1 chain_id2 : String) (pairs : List (Residue × Residue))
    (internal_distance_cutoff : ℚ)
    (h : pairs = []) :
    buildGraphInterface query_id chainPssm chain_id1 chain_id2 pairs
      internal_distance_cutoff = Except.error "no interface residues found" := by
  subst h
  rfl

/-- Witness for **C4**: an empty pair list makes the concrete interface query
raise rather than return a graph. -/
theorem interface_query_empty_pairs_raises_witness :
    buildGraphInterface "1ATN:A-B" wChainPssm "A" "B" [] 3 =
      Except.error "no interface residues found" :=
  interface_query_empty_pairs_raises "1ATN:A-B" wChainPssm "A" "B" [] 3 rfl

/-- **C7**: in a residue-granularity interface query, residues missing from
their chain's PSSM table or with unknown amino acid are excluded from the node
set and from all edges, but the query itself never fails because of them: for
any nonempty interface pair list, `build_graph` returns a graph whose nodes
and edge endpoints are all valid residues. -/
theorem invalid_residues_excluded_without_failure
    (query_id : String) (chainPssm : String → List Residue)
    (chain_id1 chain_id2 : String) (pairs : List (Residue × Residue))
    (internal_distance_cutoff : ℚ)
    (h : pairs ≠ []) :
    ∃ gr, buildGraphInterface query_id chainPssm chain_id1 chain_id2 pairs
        internal_distance_cutoff = Except.ok gr ∧
      (∀ p ∈ gr.nodes, residue_is_valid chainPssm p.2 = true) ∧
      (∀ e ∈ gr.edges, residue_is_valid chainPssm e.item1 = true ∧
        residue_is_valid chainPssm e.item2 = true) := by
  rw [buildGraphInterface]
  rw [if_neg (by simpa using h)]
  refine ⟨_, rfl, ?_⟩
  have hsets := collectSets_valid chainPssm chain_id1 chain_id2 pairs ([], [])
    (by intro r hr; simp at hr) (by intro r hr; simp at hr)
  have hg1 := interface_fold_valid chainPssm pairs ⟨query_id, [], []⟩
    (by intro p hp; simp at hp) (by intro e he; simp at he)
  have hg2 := internal_fold_valid chainPssm internal_distance_cutoff
    (indexPairs (collectSets chainPssm chain_id1 chain_id2 pairs).1) _
    (by
      intro pr hpr
      obtain ⟨hm1, hm2⟩ := mem_indexPairs hpr
      exact ⟨hsets.1 pr.1 hm1, hsets.1 pr.2 hm2⟩)
    hg1.1 hg1.2
  have hg3 := internal_fold_valid chainPssm internal_distance_cutoff
    (indexPairs (collectSets chainPssm chain_id1 chain_id2 pairs).2) _
    (by
      intro pr hpr
      obtain ⟨hm1, hm2⟩ := mem_indexPairs hpr
      exact ⟨hsets.2 pr.1 hm1, hsets.2 pr.2 hm2⟩)
    hg2.1 hg2.2
  exact hg3

/-- Witness for **C7**: a pair list containing one valid-valid pair and one
pair with an invalid residue still yields a graph, with only valid residues in
it. -/
theorem invalid_residues_excluded_without_failure_witness :
    ∃ gr, buildGraphInterface "1ATN:A-B" wChainPssm "A" "B"
        [(wResA, wResB), (wResA, wResBad)] 3 = Except.ok gr ∧
      (∀ p ∈ gr.nodes, residue_is_valid wChainPssm p.2 = true) ∧
      (∀ e ∈ gr.edges, residue_is_valid wChainPssm e.item1 = true ∧
        residue_is_valid wChainPssm e.item2 = true) :=
  invalid_residues_excluded_without_failure "1ATN:A-B" wChainPssm "A" "B"
    [(wResA, wResB), (wResA, wResBad)] 3 (by decide)

theorem takeWhile_until_hyphen (l1 l2 : List Char) (h : ∀ x ∈ l1, x ≠ '-') :
    (l1 ++ '-' :: l2).takeWhile (fun x => x != '-') = l1 := by
  induction l1 with
  | nil => simp
  | cons a as ih =>
    have ha : (a != '-') = true := by
      simpa using h a (List.mem_cons_self _ _)
    rw [List.cons_append, List.takeWhile_cons]
    simp only [ha, if_true]
    rw [ih fun x hx => h x (List.mem_cons_of_mem _ hx)]

theorem hyphen_sep_inj {l1 l2 : List Char}
    (h1 : ∀ x ∈ l1, x ≠ '-') (h2 : ∀ x ∈ l2, x ≠ '-')
    (h : l1 ++ '-' :: l2 = l2 ++ '-' :: l1) : l1 = l2 := by
  have t1 := takeWhile_until_hyphen l1 l2 h1
  have t2 := takeWhile_until_hyphen l2 l1 h2
  rw [h, t2] at t1
  exact t1.symm

theorem sortedPair_comm (a b : String) : sortedPair a b = sortedPair b a := by
  rw [sortedPair, sortedPair]
  rcases lt_trichotomy a b with h | h | h
  · rw [if_neg (asymm h), if_pos h]
  · rw [h]
  · rw [if_pos h, if_neg (asymm h)]

/-- Counterexample to **C10** as stated: with model id "1ATN" and the distinct
chain ids "A-A" and "A", the queries built with the two chain orders have
*equal* query ids, refuting "their query ids (get_query_id) differ when
c1 ≠ c2". -/
theorem ppi_query_id_collision_counterexample :
    ("A-A" : String) ≠ "A" ∧
    PPIQuery.get_query_id ⟨"1ATN", "A-A", "A"⟩ =
      PPIQuery.get_query_id ⟨"1ATN", "A", "A-A"⟩ :=
  ⟨by decide, rfl⟩

/-- **C10** (amended): equality and hashing of
`ProteinProteinInterfaceResidueQuery` are symmetric in the two chain ids — the
queries built with `(c1, c2)` and `(c2, c1)` compare equal and have equal hash
inputs; and their query ids differ when `c1 ≠ c2`, provided neither chain id
contains the separator character '-'. -/
theorem ppi_query_eq_hash_symmetric
    (m c1 c2 : String)
    (hne : c1 ≠ c2)
    (h1 : ∀ x ∈ c1.data, x ≠ '-') (h2 : ∀ x ∈ c2.data, x ≠ '-') :
    PPIQuery.eq ⟨m, c1, c2⟩ ⟨m, c2, c1⟩ ∧
    PPIQuery.hash_input ⟨m, c1, c2⟩ = PPIQuery.hash_input ⟨m, c2, c1⟩ ∧
    PPIQuery.get_query_id ⟨m, c1, c2⟩ ≠ PPIQuery.get_query_id ⟨m, c2, c1⟩ := by
  refine ⟨⟨rfl, Finset.pair_comm c1 c2⟩, ?_, ?_⟩
  · rw [PPIQuery.hash_input, PPIQuery.hash_input]
    dsimp only
    rw [sortedPair_comm]
  · intro hq
    rw [PPIQuery.get_query_id, PPIQuery.get_query_id] at hq
    dsimp only at hq
    have hd := congrArg String.data hq
    have hcolon : (":" : String).data = [':'] := rfl
    have hhyphen : ("-" : String).data = ['-'] := rfl
    simp only [String.data_append, hcolon, hhyphen, List.append_assoc,
      List.singleton_append] at hd
    have hd2 := List.append_cancel_left hd
    injection hd2 with _ hd3
    have hdata : c1.data = c2.data := hyphen_sep_inj h1 h2 hd3
    exact hne (congrArg String.mk hdata)

/-- Witness for the amended **C10**: model "1ATN" with the hyphen-free chains
"A" and "B". -/
theorem ppi_query_eq_hash_symmetric_witness :
    PPIQuery.eq ⟨"1ATN", "A", "B"⟩ ⟨"1ATN", "B", "A"⟩ ∧
    PPIQuery.hash_input ⟨"1ATN", "A", "B"⟩ = PPIQuery.hash_input ⟨"1ATN", "B", "A"⟩ ∧
    PPIQuery.get_query_id ⟨"1ATN", "A", "B"⟩ ≠ PPIQuery.get_query_id ⟨"1ATN", "B", "A"⟩ :=
  ppi_query_eq_hash_symmetric "1ATN" "A" "B" (by decide) (by decide) (by decide)

theorem mem_keys_upsertAssoc {κ ν : Type} [DecidableEq κ]
    (fs : List (κ × ν)) (k : κ) (v : ν) (k2 : κ) :
    k2 ∈ (upsertAssoc fs k v).map Prod.fst ↔ (k2 = k ∨ k2 ∈ fs.map Prod.fst) := by
  induction fs with
  | nil => simp [upsertAssoc]
  | cons p rest ih =>
    obtain ⟨k0, v0⟩ := p
    rw [upsertAssoc]
    split
    · rename_i hk
      subst hk
      simp only [List.map_cons, List.mem_cons]
      tauto
    · rename_i hk
      simp only [List.map_cons, List.mem_cons, ih]
      tauto

theorem lookup_upsertAssoc_same {κ ν : Type} [DecidableEq κ]
    (fs : List (κ × ν)) (k : κ) (v : ν) :
    lookupAssoc (upsertAssoc fs k v) k = some v := by
  induction fs with
  | nil => simp [upsertAssoc, lookupAssoc]
  | cons p rest ih =>
    obtain ⟨k0, v0⟩ := p
    rw [upsertAssoc]
    split
    · rename_i hk
      rw [lookupAssoc, if_pos hk]
    · rename_i hk
      rw [lookupAssoc, if_neg hk]
      exact ih

theorem lookup_upsertAssoc_other {κ ν : Type} [DecidableEq κ]
    (fs : List (κ × ν)) (k : κ) (v : ν) (k2 : κ) (hne : k ≠ k2) :
    lookupAssoc (upsertAssoc fs k v) k2 = lookupAssoc fs k2 := by
  induction fs with
  | nil =>
    rw [upsertAssoc, lookupAssoc, lookupAssoc]
    rw [if_neg hne]
    rfl
  | cons p rest ih =>
    obtain ⟨k0, v0⟩ := p
    rw [upsertAssoc]
    split
    · rename_i hk
      subst hk
      rw [lookupAssoc, lookupAssoc]
      rw [if_neg hne, if_neg hne]
    · rename_i hk
      rw [lookupAssoc, lookupAssoc]
      by_cases h2 : k0 = k2
      · rw [if_pos h2, if_pos h2]
      · rw [if_neg h2, if_neg h2]
        exact ih

theorem mem_mapM_option {α β : Type} (f : α → Option β) :
    ∀ (l : List α) (out : List β), l.mapM f = some out →
      ∀ m ∈ out, ∃ n ∈ l, f n = some m := by
  intro l
  induction l with
  | nil =>
    intro out h m hm
    simp only [List.mapM_nil, Option.pure_def, Option.some.injEq] at h
    rw [← h] at hm
    simp at hm
  | cons a rest ih =>
    intro out h m hm
    rw [List.mapM_cons] at h
    cases hfa : f a with
    | none => rw [hfa] at h; simp at h
    | some b =>
      rw [hfa] at h
      cases hrest : rest.mapM f with
      | none =>
        rw [hrest] at h
        simp at h
      | some bs =>
        rw [hrest] at h
        simp at h
        rw [← h] at hm
        rcases List.mem_cons.mp hm with h1 | h1
        · exact ⟨a, List.mem_cons_self _ _, by rw [h1]; exact hfa⟩
        · obtain ⟨n, hn, hfn⟩ := ih bs hrest m h1
          exact ⟨n, List.mem_cons_of_mem _ hn, hfn⟩

theorem add_features_node_spec
    (pssmOf : CResidue → Option PssmRow) (variant : Option SingleResidueVariant)
    (node m : DNode)
    (hf : add_features_node pssmOf variant node = some m) :
    m.id = node.id ∧
    (∀ k : String, k ∈ m.features.map Prod.fst ↔
      (k ∈ addedKeys variant ∨ k ∈ node.features.map Prod.fst)) ∧
    (∀ v, variant = some v → node.id.residue_of ≠ v.residue →
      lookupAssoc m.features Nfeat_CONSERVATION = some (FeatValue.num 0) ∧
      lookupAssoc m.features Nfeat_DIFFCONSERVATION = some (FeatValue.num 0)) := by
  simp only [add_features_node] at hf
  cases hrow : pssmOf node.id.residue_of with
  | none => rw [hrow] at hf; simp at hf
  | some pssm_row =>
    rw [hrow] at hf
    simp only [Option.bind_eq_bind, Option.some_bind] at hf
    cases hprof : profile_amino_acid_order.mapM
        (fun aa => pssm_row.get_conservation aa) with
    | none => rw [hprof] at hf; simp at hf
    | some profile =>
      rw [hprof] at hf
      simp only [Option.bind_eq_bind, Option.some_bind] at hf
      cases variant with
      | none =>
        simp at hf
        refine ⟨by rw [← hf], ?_, ?_⟩
        · intro k
          rw [← hf]
          simp only [mem_keys_upsertAssoc, addedKeys, List.mem_cons,
            List.not_mem_nil, or_false]
          tauto
        · intro v hv
          exact absurd hv (by simp)
      | some v =>
        dsimp only at hf
        by_cases hres : node.id.residue_of = v.residue
        · rw [if_pos hres] at hf
          cases hcw : pssm_row.get_conservation v.wildtype_amino_acid with
          | none => rw [hcw] at hf; simp at hf
          | some cw =>
            rw [hcw] at hf
            simp only [Option.bind_eq_bind, Option.some_bind] at hf
            cases hcv : pssm_row.get_conservation v.variant_amino_acid with
            | none => rw [hcv] at hf; simp at hf
            | some cv =>
              rw [hcv] at hf
              simp only [Option.bind_eq_bind, Option.some_bind] at hf
              simp at hf
              refine ⟨by rw [← hf], ?_, ?_⟩
              · intro k
                rw [← hf]
                simp only [mem_keys_upsertAssoc, addedKeys, List.mem_cons,
                  List.not_mem_nil, or_false]
                tauto
              · intro v2 hv2 hne
                rw [Option.some_inj.mp hv2] at hres
                exact absurd hres hne
        · rw [if_neg hres] at hf
          simp at hf
          refine ⟨by rw [← hf], ?_, ?_⟩
          · intro k
            rw [← hf]
            simp only [mem_keys_upsertAssoc, addedKeys, List.mem_cons,
              List.not_mem_nil, or_false]
            tauto
          · intro v2 hv2 hne2
            rw [← hf]
            constructor
            · rw [lookup_upsertAssoc_other _ _ _ _
                (by simp [Nfeat_DIFFCONSERVATION, Nfeat_CONSERVATION])]
              exact lookup_upsertAssoc_same _ _ _
            · exact lookup_upsertAssoc_same _ _ _

/-- **C2**: after the PSSM feature-attachment pass, every node of the graph
carries the identical set of feature names — features never computed for a
node (the conservation and conservation-difference scores for non-variant
residues) are explicitly set to zero rather than omitted — provided all nodes
carried the same feature-name set before the pass. -/
theorem add_features_uniform_schema
    (pssmOf : CResidue → Option PssmRow) (variant : Option SingleResidueVariant)
    (graph : List DNode)
    (h : (add_features pssmOf variant graph).isSome = true)
    (hsame : ∀ n1 ∈ graph, ∀ n2 ∈ graph, ∀ k : String,
      (k ∈ n1.features.map Prod.fst ↔ k ∈ n2.features.map Prod.fst)) :
    (∀ m1 ∈ (add_features pssmOf variant graph).getD [],
     ∀ m2 ∈ (add_features pssmOf variant graph).getD [],
     ∀ k : String, (k ∈ m1.features.map Prod.fst ↔ k ∈ m2.features.map Prod.fst)) ∧
    (∀ v, variant = some v →
     ∀ m ∈ (add_features pssmOf variant graph).getD [],
       m.id.residue_of ≠ v.residue →
       lookupAssoc m.features Nfeat_CONSERVATION = some (FeatValue.num 0) ∧
       lookupAssoc m.features Nfeat_DIFFCONSERVATION = some (FeatValue.num 0)) := by
  obtain ⟨out, hout⟩ := Option.isSome_iff_exists.mp h
  rw [hout, Option.getD_some]
  constructor
  · intro m1 hm1 m2 hm2 k
    obtain ⟨n1, hn1, hf1⟩ :=
      mem_mapM_option (add_features_node pssmOf variant) graph out hout m1 hm1
    obtain ⟨n2, hn2, hf2⟩ :=
      mem_mapM_option (add_features_node pssmOf variant) graph out hout m2 hm2
    obtain ⟨_, hk1, _⟩ := add_features_node_spec pssmOf variant n1 m1 hf1
    obtain ⟨_, hk2, _⟩ := add_features_node_spec pssmOf variant n2 m2 hf2
    rw [hk1, hk2, hsame n1 hn1 n2 hn2 k]
  · intro v hv m hm hne
    obtain ⟨n, hn, hfn⟩ :=
      mem_mapM_option (add_features_node pssmOf variant) graph out hout m hm
    obtain ⟨hid, _, hzero⟩ := add_features_node_spec pssmOf variant n m hfn
    rw [hid] at hne
    exact hzero v hv hne

/-- Witness for **C2**: a two-node graph (variant node plus another residue's
atom node), a total conservation table and the alanine-to-glycine variant;
after the pass both nodes carry the identical feature-name set, and the
non-variant node carries explicit zeros for the conservation pair. -/
theorem add_features_uniform_schema_witness :
    (∀ m1 ∈ (add_features wPssmOf (some wVariant) wDGraph).getD [],
     ∀ m2 ∈ (add_features wPssmOf (some wVariant) wDGraph).getD [],
     ∀ k : String, (k ∈ m1.features.map Prod.fst ↔ k ∈ m2.features.map Prod.fst)) ∧
    (∀ v, some wVariant = some v →
     ∀ m ∈ (add_features wPssmOf (some wVariant) wDGraph).getD [],
       m.id.residue_of ≠ v.residue →
       lookupAssoc m.features Nfeat_CONSERVATION = some (FeatValue.num 0) ∧
       lookupAssoc m.features Nfeat_DIFFCONSERVATION = some (FeatValue.num 0)) :=
  add_features_uniform_schema wPssmOf (some wVariant) wDGraph
    (by decide)
    (by
      intro n1 h1 n2 h2 k
      simp only [wDGraph, List.mem_cons, List.not_mem_nil, or_false] at h1 h2
      rcases h1 with h1 | h1 <;> rcases h2 with h2 | h2 <;> rw [h1, h2])

theorem mapM_option_length {α β : Type} (f : α → Option β) :
    ∀ (l : List α) (out : List β), l.mapM f = some out → out.length = l.length := by
  intro l
  induction l with
  | nil =>
    intro out h
    simp only [List.mapM_nil, Option.pure_def, Option.some.injEq] at h
    rw [← h]
    rfl
  | cons a rest ih =>
    intro out h
    rw [List.mapM_cons] at h
    cases hfa : f a with
    | none => rw [hfa] at h; simp at h
    | some b =>
      rw [hfa] at h
      cases hrest : rest.mapM f with
      | none => rw [hrest] at h; simp at h
      | some bs =>
        rw [hrest] at h
        simp at h
        rw [← h]
        simp [ih bs hrest]

theorem mapM_option_get {α β : Type} (f : α → Option β) :
    ∀ (l : List α) (out : List β), l.mapM f = some out →
      ∀ (i : ℕ) (hi : i < l.length) (hr : i < out.length),
        f (l.get ⟨i, hi⟩) = some (out.get ⟨i, hr⟩) := by
  intro l
  induction l with
  | nil =>
    intro out h i hi hr
    simp at hi
  | cons a rest ih =>
    intro out h i hi hr
    rw [List.mapM_cons] at h
    cases hfa : f a with
    | none => rw [hfa] at h; simp at h
    | some b =>
      rw [hfa] at h
      cases hrest : rest.mapM f with
      | none => rw [hrest] at h; simp at h
      | some bs =>
        rw [hrest] at h
        simp at h
        subst h
        cases i with
        | zero => simpa using hfa
        | succ j =>
          have hj : j < rest.length := by simpa using hi
          have hjr : j < bs.length := by simpa using hr
          simpa using ih bs hrest j hj hjr

theorem mapM_option_fst {α β : Type} (f : α → Option (α × β))
    (hf : ∀ a b, f a = some b → b.1 = a) :
    ∀ (l : List α) (out : List (α × β)), l.mapM f = some out →
      out.map Prod.fst = l := by
  intro l
  induction l with
  | nil =>
    intro out h
    simp only [List.mapM_nil, Option.pure_def, Option.some.injEq] at h
    rw [← h]
    rfl
  | cons a rest ih =>
    intro out h
    rw [List.mapM_cons] at h
    cases hfa : f a with
    | none => rw [hfa] at h; simp at h
    | some b =>
      rw [hfa] at h
      cases hrest : rest.mapM f with
      | none => rw [hrest] at h; simp at h
      | some bs =>
        rw [hrest] at h
        simp at h
        rw [← h]
        simp only [List.map_cons]
        rw [hf a b hfa, ih bs hrest]

theorem upsertAssoc_notmem {κ ν : Type} [DecidableEq κ] :
    ∀ (t : List (κ × ν)) (k : κ) (v : ν), k ∉ t.map Prod.fst →
      upsertAssoc t k v = t ++ [(k, v)] := by
  intro t
  induction t with
  | nil =>
    intro k v _
    rfl
  | cons p rest ih =>
    intro k v h
    obtain ⟨k0, v0⟩ := p
    simp only [List.map_cons, List.mem_cons] at h
    push_neg at h
    rw [upsertAssoc, if_neg (fun hc => h.1 hc.symm)]
    rw [ih k v h.2]
    rfl

theorem foldl_upsertAssoc_eq {κ ν : Type} [DecidableEq κ] :
    ∀ (rows acc : List (κ × ν)),
      ((acc ++ rows).map Prod.fst).Nodup →
      rows.foldl (fun t rp => upsertAssoc t rp.1 rp.2) acc = acc ++ rows := by
  intro rows
  induction rows with
  | nil =>
    intro acc _
    simp
  | cons rp rest ih =>
    intro acc hnd
    rw [List.foldl_cons]
    have hkeys : (acc ++ rp :: rest).map Prod.fst =
        acc.map Prod.fst ++ rp.1 :: rest.map Prod.fst := by
      simp
    rw [hkeys] at hnd
    have hdisj := (List.nodup_append.mp hnd).2.2
    have hnotmem : rp.1 ∉ acc.map Prod.fst := by
      intro hmem
      exact hdisj hmem (List.mem_cons_self _ _)
    rw [upsertAssoc_notmem acc rp.1 rp.2 hnotmem]
    have hnd2 : (((acc ++ [rp]) ++ rest).map Prod.fst).Nodup := by
      rw [List.append_assoc]
      simp only [List.singleton_append]
      rw [hkeys]
      exact hnd
    rw [ih (acc ++ [rp]) hnd2]
    simp

theorem parse_residue_number_rule (s : String) (ni : Int × Option Char)
    (h : parse_residue_number s = some ni) :
    ∃ c, s.data.getLast? = some c ∧
      (c.isAlpha = true → pyint (s.dropRight 1) = some ni.1 ∧ ni.2 = some c) ∧
      (c.isAlpha = false → pyint s = some ni.1 ∧ ni.2 = none) := by
  rw [parse_residue_number] at h
  cases hl : s.data.getLast? with
  | none => rw [hl] at h; exact Option.noConfusion h
  | some c =>
    rw [hl] at h
    dsimp only at h
    split at h
    · rename_i hc
      cases ht : pyint (s.dropRight 1) with
      | none =>
        rw [ht] at h
        dsimp only at h
        exact Option.noConfusion h
      | some n =>
        rw [ht] at h
        dsimp only at h
        have heq := Option.some_inj.mp h
        refine ⟨c, rfl, fun _ => ?_, fun hfalse => ?_⟩
        · rw [← heq]
          exact ⟨rfl, rfl⟩
        · rw [hc] at hfalse
          exact absurd hfalse (by simp)
    · rename_i hc
      cases ht : pyint s with
      | none =>
        rw [ht] at h
        dsimp only at h
        exact Option.noConfusion h
      | some n =>
        rw [ht] at h
        dsimp only at h
        have heq := Option.some_inj.mp h
        refine ⟨c, rfl, fun htrue => absurd htrue hc, fun _ => ?_⟩
        rw [← heq]
        exact ⟨rfl, rfl⟩

theorem parse_pssm_line_spec (ci : String → Option ℕ) (pyfloat : String → Option ℚ)
    (row : List String) (entry : CResidue × PssmRow)
    (h : parse_pssm_line ci pyfloat row = some entry) :
    entry.2.conservations.map Prod.fst = amino_acids ∧
    (∃ icstr, rowGet row (ci "IC") = some icstr ∧
      pyfloat icstr = some entry.2.information_content) ∧
    (∃ resfield, rowGet row (ci "pdbresi") = some resfield ∧
      parse_residue_number resfield = some (entry.1.number, entry.1.insertion_code)) := by
  simp only [parse_pssm_line] at h
  cases h1 : rowGet row (ci "pdbresn") with
  | none => rw [h1] at h; simp at h
  | some letter =>
  rw [h1] at h
  simp only [Option.bind_eq_bind, Option.some_bind] at h
  cases h2 : amino_acids_by_letter letter with
  | none => rw [h2] at h; simp at h
  | some amino_acid =>
  rw [h2] at h
  simp only [Option.bind_eq_bind, Option.some_bind] at h
  cases h3 : rowGet row (ci "pdbresi") with
  | none => rw [h3] at h; simp at h
  | some resfield =>
  rw [h3] at h
  simp only [Option.bind_eq_bind, Option.some_bind] at h
  cases h4 : parse_residue_number resfield with
  | none => rw [h4] at h; simp at h
  | some ni =>
  rw [h4] at h
  simp only [Option.bind_eq_bind, Option.some_bind] at h
  cases h5 : rowGet row (ci "IC") with
  | none => rw [h5] at h; simp at h
  | some icstr =>
  rw [h5] at h
  simp only [Option.bind_eq_bind, Option.some_bind] at h
  cases h6 : pyfloat icstr with
  | none => rw [h6] at h; simp at h
  | some information_content =>
  rw [h6] at h
  simp only [Option.bind_eq_bind, Option.some_bind] at h
  cases h7 : amino_acids.mapM (fun aa =>
      (rowGet row (ci aa.one_letter_code)).bind fun s =>
        (pyfloat s).bind fun v => pure (aa, v)) with
  | none =>
    rw [h7] at h
    simp at h
  | some conservations =>
  rw [h7] at h
  simp only [Option.bind_eq_bind, Option.some_bind, Option.pure_def,
    Option.some.injEq] at h
  have hfst : conservations.map Prod.fst = amino_acids := by
    apply mapM_option_fst _ ?_ amino_acids conservations h7
    intro aa b hb
    cases hs : rowGet row (ci aa.one_letter_code) with
    | none => rw [hs] at hb; simp at hb
    | some s =>
      rw [hs] at hb
      simp only [Option.some_bind] at hb
      cases hv : pyfloat s with
      | none => rw [hv] at hb; simp at hb
      | some v =>
        rw [hv] at hb
        simp only [Option.some_bind, Option.pure_def, Option.some.injEq] at hb
        rw [← hb]
  refine ⟨?_, ⟨icstr, rfl, ?_⟩, ⟨resfield, rfl, ?_⟩⟩
  · rw [← h]
    exact hfst
  · rw [← h]
    exact h6
  · rw [← h]
    exact h4

/-- **C8**: `parse_pssm` returns a table with one entry per data line of the
input file — each entry holding one conservation score per amino acid and the
information-content scalar of its line — and a residue-number field whose
last character is alphabetic is split into the integer prefix as the residue
number and the trailing letter as the insertion code, otherwise the insertion
code is `None`. (A table entry per line requires the parsed residues to be
distinct; duplicated residues overwrite in the dictionary.) -/
theorem parse_pssm_row_per_line
    (header : List String) (lines : List (List String)) (pyfloat : String → Option ℚ)
    (h : (parse_pssm header lines pyfloat).isSome = true) :
    ∃ rows, parse_pssm_lines (column_indices header) pyfloat lines = some rows ∧
      rows.length = lines.length ∧
      ((rows.map Prod.fst).Nodup → (parse_pssm header lines pyfloat).getD [] = rows) ∧
      (∀ (i : ℕ) (hi : i < lines.length) (hr : i < rows.length),
        parse_pssm_line (column_indices header) pyfloat (lines.get ⟨i, hi⟩) =
          some (rows.get ⟨i, hr⟩)) ∧
      (∀ rp ∈ rows, ∃ line ∈ lines,
        parse_pssm_line (column_indices header) pyfloat line = some rp ∧
        rp.2.conservations.map Prod.fst = amino_acids ∧
        (∃ icstr, rowGet line (column_indices header "IC") = some icstr ∧
          pyfloat icstr = some rp.2.information_content) ∧
        (∃ resfield, rowGet line (column_indices header "pdbresi") = some resfield ∧
          parse_residue_number resfield = some (rp.1.number, rp.1.insertion_code) ∧
          ∃ c, resfield.data.getLast? = some c ∧
            (c.isAlpha = true → pyint (resfield.dropRight 1) = some rp.1.number ∧
              rp.1.insertion_code = some c) ∧
            (c.isAlpha = false → pyint resfield = some rp.1.number ∧
              rp.1.insertion_code = none))) := by
  obtain ⟨rows, hrows⟩ : ∃ rows,
      parse_pssm_lines (column_indices header) pyfloat lines = some rows := by
    cases hx : parse_pssm_lines (column_indices header) pyfloat lines with
    | none =>
      rw [parse_pssm, hx] at h
      simp at h
    | some rows => exact ⟨rows, rfl⟩
  have hmapm : lines.mapM (parse_pssm_line (column_indices header) pyfloat) = some rows := by
    rw [← parse_pssm_lines]
    exact hrows
  refine ⟨rows, hrows, mapM_option_length _ _ _ hmapm, ?_,
    mapM_option_get _ _ _ hmapm, ?_⟩
  · intro hnd
    rw [parse_pssm, hrows]
    simp only [Option.bind_eq_bind, Option.some_bind, Option.pure_def, Option.getD_some]
    have heq := foldl_upsertAssoc_eq rows [] (by simpa using hnd)
    simpa using heq
  · intro rp hrp
    obtain ⟨line, hline, hparse⟩ := mem_mapM_option _ _ _ hmapm rp hrp
    obtain ⟨hkeys, hic, resfield, hresf, hnum⟩ :=
      parse_pssm_line_spec (column_indices header) pyfloat line rp hparse
    obtain ⟨c, hc, hrule1, hrule2⟩ :=
      parse_residue_number_rule resfield (rp.1.number, rp.1.insertion_code) hnum
    exact ⟨line, hline, hparse, hkeys, hic,
      ⟨resfield, hresf, hnum, c, hc, hrule1, hrule2⟩⟩

/-- Witness for **C8**: a one-line PSSM file for cysteine 42 with insertion
code A parses into a one-entry table with the full per-amino-acid score row
and the line's information content. -/
theorem parse_pssm_row_per_line_witness :
    ∃ rows, parse_pssm_lines (column_indices wHeader) wFloat [wLine] = some rows ∧
      rows.length = ([wLine] : List (List String)).length ∧
      ((rows.map Prod.fst).Nodup → (parse_pssm wHeader [wLine] wFloat).getD [] = rows) ∧
      (∀ (i : ℕ) (hi : i < ([wLine] : List (List String)).length) (hr : i < rows.length),
        parse_pssm_line (column_indices wHeader) wFloat (([wLine] : List (List String)).get ⟨i, hi⟩) =
          some (rows.get ⟨i, hr⟩)) ∧
      (∀ rp ∈ rows, ∃ line ∈ ([wLine] : List (List String)),
        parse_pssm_line (column_indices wHeader) wFloat line = some rp ∧
        rp.2.conservations.map Prod.fst = amino_acids ∧
        (∃ icstr, rowGet line (column_indices wHeader "IC") = some icstr ∧
          wFloat icstr = some rp.2.information_content) ∧
        (∃ resfield, rowGet line (column_indices wHeader "pdbresi") = some resfield ∧
          parse_residue_number resfield = some (rp.1.number, rp.1.insertion_code) ∧
          ∃ c, resfield.data.getLast? = some c ∧
            (c.isAlpha = true → pyint (resfield.dropRight 1) = some rp.1.number ∧
              rp.1.insertion_code = some c) ∧
            (c.isAlpha = false → pyint resfield = some rp.1.number ∧
              rp.1.insertion_code = none))) :=
  parse_pssm_row_per_line wHeader [wLine] wFloat (by decide)

end DeeprankCore
